import Mathlib

/-!
Verification of the storage-and-change-feed core of a relationship-based
authorization service, against its natural-language specification.

The development shallowly embeds three source files:
  * `internal/datastore/postgres/watch.go` — the watch (change-feed) engine:
    `Watch`, `loadChanges`, `addChange` and the per-revision `changeRecord`;
  * the postgres tuple-query builder (`QueryTuples`, `reverseQueryBase`);
  * `internal/services/v1alpha1/schema.go` — the schema write path.

Go maps are embedded as association lists together with their extensional
lookup function; Go `uint64` transaction ids are embedded as `Nat` (only
comparisons occur, so no wrap-around arithmetic is involved).
-/

namespace SpiceDB

/-! ### Association-list maps (the embedding of Go maps)

`alSet m k v` is `m[k] = v`, `alErase m k` is `delete(m, k)`, and
`alLookup m k` is `m[k]` (with `none` for a missing key). -/

def alLookup {α β : Type} [DecidableEq α] : List (α × β) → α → Option β
  | [], _ => none
  | p :: rest, k => if p.1 = k then some p.2 else alLookup rest k

def alSet {α β : Type} [DecidableEq α] : List (α × β) → α → β → List (α × β)
  | [], k, v => [(k, v)]
  | p :: rest, k, v => if p.1 = k then (k, v) :: rest else p :: alSet rest k v

def alErase {α β : Type} [DecidableEq α] : List (α × β) → α → List (α × β)
  | [], _ => []
  | p :: rest, k => if p.1 = k then alErase rest k else p :: alErase rest k

def alKeys {α β : Type} (m : List (α × β)) : List α := m.map (·.1)


/-! ### Relation tuples and the watch engine (`watch.go`) -/

/-- A relation tuple: the six string fields of a stored row, mirroring
`v0.RelationTuple` with a userset subject (`ObjectAndRelation` plus the
userset's `Namespace`/`ObjectId`/`Relation`). -/
structure RelationTuple where
  objNamespace : String
  objObjectId : String
  objRelation : String
  usersetNamespace : String
  usersetObjectId : String
  usersetRelation : String
deriving DecidableEq

/-- Modelled from the spec: `tuple.String`, the canonical tuple string
`"ns:id#rel@sns:sid#srel"` used as the map key in the watch engine.
(The function itself lives in `pkg/tuple`, outside the given sources.) -/
def tupleString (t : RelationTuple) : String :=
  t.objNamespace ++ ":" ++ t.objObjectId ++ "#" ++ t.objRelation ++ "@" ++
    t.usersetNamespace ++ ":" ++ t.usersetObjectId ++ "#" ++ t.usersetRelation

/-- The two tuple-update operations the watch engine stages
(`v0.RelationTupleUpdate_TOUCH` / `v0.RelationTupleUpdate_DELETE`).
`addChange` aborts the process on any other operation and `loadChanges`
only ever passes these two. -/
inductive RelOp where
  | TOUCH
  | DELETE
deriving DecidableEq

/-- The per-revision `changeRecord` of `watch.go`: two maps from the
canonical tuple string to the tuple. -/
structure ChangeRecord where
  tupleTouches : List (String × RelationTuple)
  tupleDeletes : List (String × RelationTuple)
deriving DecidableEq

def emptyRecord : ChangeRecord := ⟨[], []⟩

/-- The `switch op` body of `addChange`: a TOUCH drops any staged DELETE
for the same tuple key and records the touch; a DELETE is recorded only if
the same key was not already touched at this revision. -/
def applyOpToRecord (rec : ChangeRecord) (tpl : RelationTuple) :
    RelOp → ChangeRecord
  | RelOp.TOUCH =>
      ⟨alSet rec.tupleTouches (tupleString tpl) tpl,
       alErase rec.tupleDeletes (tupleString tpl)⟩
  | RelOp.DELETE =>
      if (alLookup rec.tupleTouches (tupleString tpl)).isSome then rec
      else ⟨rec.tupleTouches, alSet rec.tupleDeletes (tupleString tpl) tpl⟩

/-- The function `addChange` from `watch.go`: fetch the revision's `changeRecord`
(creating an empty one if absent, exactly as the Go code inserts a fresh
record into the map), apply the operation, and store the record back. -/
def addChange (changes : List (Nat × ChangeRecord)) (revision : Nat)
    (tpl : RelationTuple) (op : RelOp) : List (Nat × ChangeRecord) :=
  alSet changes revision
    (applyOpToRecord ((alLookup changes revision).getD emptyRecord) tpl op)

/-- One staged call to `addChange`. -/
structure Event where
  rev : Nat
  tpl : RelationTuple
  op : RelOp
deriving DecidableEq

def addChangeEv (m : List (Nat × ChangeRecord)) (e : Event) :
    List (Nat × ChangeRecord) :=
  addChange m e.rev e.tpl e.op

/-- A stored tuple row as scanned by `loadChanges`: the tuple plus its
`created_txn` and `deleted_txn` columns. -/
structure TupleRow where
  tpl : RelationTuple
  createdTxn : Nat
  deletedTxn : Nat
deriving DecidableEq

/-- The two per-row guards of `loadChanges` (lines 148–154): a TOUCH at
`createdTxn` when it lies in `(afterRevision, newRevision]`, and a DELETE
at `deletedTxn` when it lies in that interval. -/
def rowEvents (afterRevision newRevision : Nat) (row : TupleRow) : List Event :=
  (if afterRevision < row.createdTxn ∧ row.createdTxn ≤ newRevision then
    [⟨row.createdTxn, row.tpl, RelOp.TOUCH⟩]
  else []) ++
  (if afterRevision < row.deletedTxn ∧ row.deletedTxn ≤ newRevision then
    [⟨row.deletedTxn, row.tpl, RelOp.DELETE⟩]
  else [])

/-- All `addChange` calls made by one poll of `loadChanges`, in row order. -/
def watchEvents (afterRevision newRevision : Nat) (rows : List TupleRow) :
    List Event :=
  rows.flatMap (rowEvents afterRevision newRevision)

/-- The staged-changes map built by one poll of `loadChanges`. -/
def stageChanges (afterRevision newRevision : Nat) (rows : List TupleRow) :
    List (Nat × ChangeRecord) :=
  (watchEvents afterRevision newRevision rows).foldl addChangeEv []

/-- An emitted `datastore.RevisionChanges` value. -/
structure RevisionChanges where
  revision : Nat
  changes : List (RelOp × RelationTuple)
deriving DecidableEq

/-- Emission of one revision's record (lines 174–185): all touches as
TOUCH updates, then all deletes as DELETE updates. -/
def emitRecord (rec : ChangeRecord) : List (RelOp × RelationTuple) :=
  rec.tupleTouches.map (fun p => (RelOp.TOUCH, p.2)) ++
    rec.tupleDeletes.map (fun p => (RelOp.DELETE, p.2))

/-- The pure core of `loadChanges`: stage all row events through
`addChange`, sort the revisions that have changes in ascending order, and
emit one `RevisionChanges` per revision. -/
def loadChangesPure (afterRevision newRevision : Nat) (rows : List TupleRow) :
    List RevisionChanges :=
  let stagedChanges := stageChanges afterRevision newRevision rows
  let revisionsWithChanges :=
    List.insertionSort (· ≤ ·) (alKeys stagedChanges)
  revisionsWithChanges.map (fun rev =>
    ⟨rev, emitRecord ((alLookup stagedChanges rev).getD emptyRecord)⟩)

/-- The staged touch entry for key `k` at revision `r` (the lookup
`stagedChanges[r].tupleTouches[k]`, with a missing revision read as the
empty record). -/
def stagedTouch (m : List (Nat × ChangeRecord)) (r : Nat) (k : String) :
    Option RelationTuple :=
  alLookup ((alLookup m r).getD emptyRecord).tupleTouches k

/-- The staged delete entry for key `k` at revision `r`. -/
def stagedDelete (m : List (Nat × ChangeRecord)) (r : Nat) (k : String) :
    Option RelationTuple :=
  alLookup ((alLookup m r).getD emptyRecord).tupleDeletes k

/-- Left-biased choice on options (used to state how later staged events
override earlier ones). -/
def orO {γ : Type} : Option γ → Option γ → Option γ
  | some x, _ => some x
  | none, b => b

/-- Holds when `e` is a TOUCH staged at revision `r` under tuple key `k`. -/
abbrev touchPred (r : Nat) (k : String) (e : Event) : Prop :=
  e.rev = r ∧ e.op = RelOp.TOUCH ∧ tupleString e.tpl = k

/-- Holds when `e` is a DELETE staged at revision `r` under tuple key `k`. -/
abbrev deletePred (r : Nat) (k : String) (e : Event) : Prop :=
  e.rev = r ∧ e.op = RelOp.DELETE ∧ tupleString e.tpl = k

/-- The tuple of the last event in `es` satisfying `p`, if any. -/
def lastMatch (p : Event → Prop) [DecidablePred p] (es : List Event) :
    Option RelationTuple :=
  es.foldl (fun acc e => if p e then some e.tpl else acc) none

def lastTouchOpt (es : List Event) (r : Nat) (k : String) :
    Option RelationTuple :=
  lastMatch (touchPred r k) es

def lastDeleteOpt (es : List Event) (r : Nat) (k : String) :
    Option RelationTuple :=
  lastMatch (deletePred r k) es

/-- Some TOUCH for key `k` at revision `r` occurs in `es`. -/
def hasTouchAt (es : List Event) (r : Nat) (k : String) : Prop :=
  ∃ e ∈ es, touchPred r k e

instance (es : List Event) (r : Nat) (k : String) :
    Decidable (hasTouchAt es r k) := by
  unfold hasTouchAt
  infer_instance

/-- Every entry of a `changeRecord` map is keyed by the canonical string
of its tuple. -/
def keyConsistent (l : List (String × RelationTuple)) : Prop :=
  ∀ p ∈ l, p.1 = tupleString p.2

/-- Well-formedness of a `changeRecord`: both maps have distinct keys and
are keyed by the canonical tuple string. -/
def WfRecord (rec : ChangeRecord) : Prop :=
  (alKeys rec.tupleTouches).Nodup ∧ (alKeys rec.tupleDeletes).Nodup ∧
    keyConsistent rec.tupleTouches ∧ keyConsistent rec.tupleDeletes

/-- Well-formedness of the staged-changes map: distinct revision keys and
well-formed records. -/
def WfStaged (m : List (Nat × ChangeRecord)) : Prop :=
  (alKeys m).Nodup ∧ ∀ p ∈ m, WfRecord p.2

/-- All the tuples appearing in `es` under a given canonical key are one
and the same tuple (the canonical string identifies tuples on `es`). -/
def KeysInjectiveOn (es : List Event) : Prop :=
  ∀ e₁ ∈ es, ∀ e₂ ∈ es, tupleString e₁.tpl = tupleString e₂.tpl →
    e₁.tpl = e₂.tpl

instance (es : List Event) : Decidable (KeysInjectiveOn es) := by
  unfold KeysInjectiveOn
  infer_instance

/-! ### The emission channel of `Watch`

`Watch` writes each staged `RevisionChanges` with a non-blocking channel
send (`select` with a `default` branch): if the bounded buffer is full it
pushes `WatchDisconnected` on the error channel and returns. -/

/-- A bounded channel: capacity `watchBufferLength` and current buffer. -/
structure BoundedChan (α : Type) where
  cap : Nat
  buf : List α
deriving DecidableEq

/-- Non-blocking send (`select { case ch <- x: default: }`): `some` of the
new channel state on success, `none` when the buffer is full. -/
def trySend {α : Type} (c : BoundedChan α) (x : α) : Option (BoundedChan α) :=
  if c.buf.length < c.cap then some ⟨c.cap, c.buf ++ [x]⟩ else none

/-- The two terminal watch errors surfaced on the error channel. -/
inductive WatchErr where
  | disconnected
  | canceled
deriving DecidableEq

/-- The emission loop of `Watch` (lines 56–63): write staged updates one
by one; on the first full buffer, emit `WatchDisconnected` and stop. The
`Option WatchErr` is the value sent on the error channel (`none` when all
updates were delivered and the loop continues). -/
def writeStagedUpdates {α : Type} (c : BoundedChan α) :
    List α → BoundedChan α × Option WatchErr
  | [] => (c, none)
  | x :: rest =>
    match trySend c x with
    | some c' => writeStagedUpdates c' rest
    | none => (c, some WatchErr.disconnected)

/-! ### Concrete fixtures used by witnesses and counterexamples -/

/-- A sample tuple. -/
def tupleA : RelationTuple :=
  ⟨"document", "doc1", "viewer", "user", "alice", "..."⟩

/-- Rows staging both a TOUCH and a DELETE for `tupleA` at revision 3
inside the polled interval (2, 5]. -/
def rowsBoth : List TupleRow := [⟨tupleA, 3, 0⟩, ⟨tupleA, 1, 3⟩]

/-- One row producing revisions 1 and 2 in the polled interval (0, 2]. -/
def rowsPoll1 : List TupleRow := [⟨tupleA, 1, 2⟩]

/-- One row producing revision 4 in the polled interval (2, 5]. -/
def rowsPoll2 : List TupleRow := [⟨tupleA, 4, 0⟩]

/-- A tuple whose namespace contains the separator `:`. -/
def tupleColl1 : RelationTuple := ⟨"a:b", "c", "r", "s", "s", "..."⟩

/-- A distinct tuple with the same canonical string as `tupleColl1`. -/
def tupleColl2 : RelationTuple := ⟨"a", "b:c", "r", "s", "s", "..."⟩

/-- Two TOUCH events at one revision whose distinct tuples share a
canonical string. -/
def eventsCollide : List Event :=
  [⟨5, tupleColl1, RelOp.TOUCH⟩, ⟨5, tupleColl2, RelOp.TOUCH⟩]

/-- A TOUCH/DELETE pair at one revision, in the two orders. -/
def eventsSwap1 : List Event :=
  [⟨5, tupleA, RelOp.TOUCH⟩, ⟨5, tupleA, RelOp.DELETE⟩]

def eventsSwap2 : List Event :=
  [⟨5, tupleA, RelOp.DELETE⟩, ⟨5, tupleA, RelOp.TOUCH⟩]

/-! ### The query builder (`QueryTuples`, `reverseQueryBase`) -/

/-- A SQL value in a where-clause comparison. -/
inductive SqlVal where
  | s (v : String)
  | n (v : Nat)
deriving DecidableEq

/-- The tuple-table columns referenced by the query builder. -/
inductive Col where
  | namespaceCol
  | objectID
  | relationCol
  | usersetNamespace
  | usersetObjectID
  | usersetRelation
  | createdTxn
  | deletedTxn
deriving DecidableEq

/-- The squirrel where-clause fragments the sources build: `sq.Eq`,
`sq.Gt` and `sq.LtOrEq` on one column, and `sq.Or` of two predicates. -/
inductive SqlExpr where
  | eqCol (c : Col) (v : SqlVal)
  | gtCol (c : Col) (v : Nat)
  | ltEqCol (c : Col) (v : Nat)
  | orE (a b : SqlExpr)
deriving DecidableEq

/-- The value a stored row gives each column. -/
def colVal (row : TupleRow) : Col → SqlVal
  | Col.namespaceCol => SqlVal.s row.tpl.objNamespace
  | Col.objectID => SqlVal.s row.tpl.objObjectId
  | Col.relationCol => SqlVal.s row.tpl.objRelation
  | Col.usersetNamespace => SqlVal.s row.tpl.usersetNamespace
  | Col.usersetObjectID => SqlVal.s row.tpl.usersetObjectId
  | Col.usersetRelation => SqlVal.s row.tpl.usersetRelation
  | Col.createdTxn => SqlVal.n row.createdTxn
  | Col.deletedTxn => SqlVal.n row.deletedTxn

/-- Evaluation of a where-clause fragment on a row. -/
def evalExpr (row : TupleRow) : SqlExpr → Bool
  | SqlExpr.eqCol c v => colVal row c == v
  | SqlExpr.gtCol c v =>
    match colVal row c with
    | SqlVal.n x => decide (v < x)
    | SqlVal.s _ => false
  | SqlExpr.ltEqCol c v =>
    match colVal row c with
    | SqlVal.n x => decide (x ≤ v)
    | SqlVal.s _ => false
  | SqlExpr.orE a b => evalExpr row a || evalExpr row b

/-- A conjunction of where-clause fragments (chained `Where` calls). -/
def evalWhere (es : List SqlExpr) (row : TupleRow) : Bool :=
  es.all (evalExpr row)

/-- Modelled from the spec: the sentinel transaction id `T_live`
("concretely zero") marking a row as not deleted (`liveDeletedTxnID`,
outside the given sources). -/
def liveDeletedTxnID : Nat := 0

/-- Modelled from the spec: conversion between the opaque revision and
the transaction counter is total and bijective, so on the embedded
counter it is the identity (`transactionFromRevision`). -/
def transactionFromRevision (revision : Nat) : Nat := revision

/-- The two `Where` calls of `reverseQueryBase` (query source, lines
67–72): `created_txn ≤ transactionFromRevision(revision)` and
(`deleted_txn = liveDeletedTxnID` or `deleted_txn > revision`). -/
def reverseQueryBaseWhere (revision : Nat) : List SqlExpr :=
  [SqlExpr.ltEqCol Col.createdTxn (transactionFromRevision revision),
   SqlExpr.orE (SqlExpr.eqCol Col.deletedTxn (SqlVal.n liveDeletedTxnID))
     (SqlExpr.gtCol Col.deletedTxn revision)]

/-- Modelled from the spec: `filterToLivingObjects` (outside the given
sources) restricts a tuple query to the rows alive at the revision,
appending `created_txn ≤ R` and (`deleted_txn = T_live` or
`deleted_txn > R`). -/
def filterToLivingObjects (q : List SqlExpr) (revision : Nat) :
    List SqlExpr :=
  q ++ [SqlExpr.ltEqCol Col.createdTxn revision,
    SqlExpr.orE (SqlExpr.eqCol Col.deletedTxn (SqlVal.n liveDeletedTxnID))
      (SqlExpr.gtCol Col.deletedTxn revision)]

/-- The filter `datastore.TupleQueryResourceFilter`: a required resource namespace
and optional resource id and relation. -/
structure TupleQueryResourceFilter where
  resourceType : String
  optionalResourceId : String
  optionalResourceRelation : String
deriving DecidableEq

/-- The fields of the returned `common.TupleQuery` that the claims
concern. -/
structure TupleQuery where
  initialQueryWhere : List SqlExpr
  initialQuerySizeEstimate : Nat
  tracerAttributes : List (String × String)
  splitAtEstimatedQuerySize : Nat
deriving DecidableEq

/-- The builder `QueryTuples` from the query source (lines 30–60): start from the
living-rows filter, always constrain the namespace to the filter's
resource type, add the object-id and relation equality constraints only
when the optional fields are non-empty, and estimate the initial query
size as the sum of the byte lengths of the three filter strings
(Go `len` on strings counts bytes). -/
def QueryTuples (splitAtEstimatedQuerySize : Nat)
    (filter : TupleQueryResourceFilter) (revision : Nat) : TupleQuery :=
  let q1 := filterToLivingObjects [] revision ++
    [SqlExpr.eqCol Col.namespaceCol (SqlVal.s filter.resourceType)]
  let q2 := if filter.optionalResourceId ≠ "" then
      q1 ++ [SqlExpr.eqCol Col.objectID (SqlVal.s filter.optionalResourceId)]
    else q1
  let q3 := if filter.optionalResourceRelation ≠ "" then
      q2 ++ [SqlExpr.eqCol Col.relationCol
        (SqlVal.s filter.optionalResourceRelation)]
    else q2
  let t1 := [("namespace", filter.resourceType)]
  let t2 := if filter.optionalResourceId ≠ "" then
      t1 ++ [("object_id", filter.optionalResourceId)] else t1
  let t3 := if filter.optionalResourceRelation ≠ "" then
      t2 ++ [("relation", filter.optionalResourceRelation)] else t2
  ⟨q3,
   filter.resourceType.utf8ByteSize +
     filter.optionalResourceId.utf8ByteSize +
     filter.optionalResourceRelation.utf8ByteSize,
   t3, splitAtEstimatedQuerySize⟩

/-- The builder `reverseQueryBase` (query source, lines 62–79): the reverse-query
starting point, with no tracer attributes and the zero-value size
estimate. -/
def reverseQueryBase (splitAtEstimatedQuerySize : Nat) (revision : Nat) :
    TupleQuery :=
  ⟨reverseQueryBaseWhere revision, 0, [], splitAtEstimatedQuerySize⟩

/-- The spec's alive-at-`R` predicate (§3): `created_txn ≤ R` and
(`deleted_txn = T_live` or `deleted_txn > R`). -/
def aliveAt (revision : Nat) (row : TupleRow) : Bool :=
  decide (row.createdTxn ≤ revision) &&
    (row.deletedTxn == liveDeletedTxnID ||
      decide (revision < row.deletedTxn))

/-- The spec's filter discipline (§4.B): the required resource namespace
matches exactly; a provided optional field matches exactly; an absent
(empty) optional field is a wildcard matching every value. -/
def matchesFilter (filter : TupleQueryResourceFilter) (row : TupleRow) :
    Bool :=
  row.tpl.objNamespace == filter.resourceType &&
    (filter.optionalResourceId == "" ||
      row.tpl.objObjectId == filter.optionalResourceId) &&
    (filter.optionalResourceRelation == "" ||
      row.tpl.objRelation == filter.optionalResourceRelation)

/-! ### The schema write path (`schema.go`) -/

/-- A compiled namespace definition; the write path inspects only its
name (`nsdef.Name`). -/
structure NsDef where
  name : String
deriving DecidableEq

/-- The collaborators of `WriteSchema`, abstracted over: the DSL compiler,
the type-system construction (`BuildNamespaceTypeSystemWithFallback`,
which resolves against the datastore and the whole batch), its
`Validate`, the existing-relationships sanity check, and the datastore's
`WriteNamespace` (which returns the new state and a revision). `St` is
the datastore state and `E` the error type; the theorems hold for every
instantiation. -/
structure SchemaWriteEnv (St E : Type) where
  compile : String → Except E (List NsDef)
  buildTypeSystem : St → NsDef → List NsDef → Option E
  validateTypeSystem : NsDef → Option E
  sanityCheckExistingRelationships : St → NsDef → Option E
  writeNamespace : St → NsDef → Except E (St × Nat)

/-- The validation loop of `WriteSchema` (schema.go lines 97–110): for
each definition, build the type system against the whole batch, validate
it, and sanity-check existing relationships; the first error aborts. -/
def validateAll {St E : Type} (env : SchemaWriteEnv St E) (st : St)
    (allDefs : List NsDef) : List NsDef → Option E
  | [] => none
  | d :: rest =>
    match env.buildTypeSystem st d allDefs with
    | some e => some e
    | none =>
      match env.validateTypeSystem d with
      | some e => some e
      | none =>
        match env.sanityCheckExistingRelationships st d with
        | some e => some e
        | none => validateAll env st allDefs rest

/-- The write loop of `WriteSchema` (schema.go lines 113–120): one
`WriteNamespace` call per definition, accumulating written names; the
first error aborts, leaving the state as already written. -/
def writeAll {St E : Type} (env : SchemaWriteEnv St E) (st : St) :
    List NsDef → List String → St × Except E (List String)
  | [], names => (st, Except.ok names)
  | d :: rest, names =>
    match env.writeNamespace st d with
    | Except.error e => (st, Except.error e)
    | Except.ok (st', _) => writeAll env st' rest (names ++ [d.name])

/-- The handler `WriteSchema` (schema.go lines 73–126): compile, validate every
definition, then persist the definitions one `WriteNamespace` call at a
time. The result pairs the datastore state after the call with either the
written names or the first error. -/
def WriteSchema {St E : Type} (env : SchemaWriteEnv St E) (st : St)
    (schema : String) : St × Except E (List String) :=
  match env.compile schema with
  | Except.error e => (st, Except.error e)
  | Except.ok nsdefs =>
    match validateAll env st nsdefs nsdefs with
    | some e => (st, Except.error e)
    | none => writeAll env st nsdefs []

/-- The datastore state after applying the writes of a definition list in
order (a failing write leaves the state unchanged); used to name the
persisted prefix. -/
def foldWrites {St E : Type} (env : SchemaWriteEnv St E) (st : St)
    (ds : List NsDef) : St :=
  ds.foldl (fun s d =>
    match env.writeNamespace s d with
    | Except.ok (s', _) => s'
    | Except.error _ => s) st

/-- A concrete instantiation for the counterexample: the state is the
list of persisted definition names, the batch compiles to `A` and `B`,
every check passes, and writing `B` fails. -/
def envPartial : SchemaWriteEnv (List String) String :=
  ⟨fun _ => Except.ok [⟨"A"⟩, ⟨"B"⟩],
   fun _ _ _ => none,
   fun _ => none,
   fun _ _ => none,
   fun st d => if d.name = "B" then Except.error "boom"
     else Except.ok (st ++ [d.name], 1)⟩

/-- A concrete instantiation whose sanity check rejects `B` while every
write would succeed. -/
def envSanityFail : SchemaWriteEnv (List String) String :=
  ⟨fun _ => Except.ok [⟨"A"⟩, ⟨"B"⟩],
   fun _ _ _ => none,
   fun _ => none,
   fun _ d => if d.name = "B" then some "SchemaInvariantViolation"
     else none,
   fun st d => Except.ok (st ++ [d.name], 1)⟩

/-! ### Theorems: association-list map laws -/

section AssocLemmas

variable {α β : Type} [DecidableEq α]

theorem alLookup_alSet (m : List (α × β)) (k k' : α) (v : β) :
    alLookup (alSet m k v) k' = if k' = k then some v else alLookup m k' := by
  induction m with
  | nil =>
    by_cases h : k' = k
    · simp [alSet, alLookup, h]
    · have h' : ¬ k = k' := fun hh => h hh.symm
      simp [alSet, alLookup, h, h']
  | cons p rest ih =>
    by_cases hp : p.1 = k
    · by_cases h : k' = k
      · simp [alSet, alLookup, hp, h]
      · have hk : ¬ k = k' := fun hh => h hh.symm
        have hpk' : ¬ p.1 = k' := fun hh => h ((hp.symm.trans hh).symm)
        simp [alSet, alLookup, hp, h, hk, hpk']
    · by_cases hk' : p.1 = k'
      · have hne : ¬ k' = k := fun hh => hp (hk'.trans hh)
        simp [alSet, alLookup, hp, hk', hne]
      · simp [alSet, alLookup, hp, hk', ih]

theorem alLookup_alErase (m : List (α × β)) (k k' : α) :
    alLookup (alErase m k) k' = if k' = k then none else alLookup m k' := by
  induction m with
  | nil => simp [alErase, alLookup]
  | cons p rest ih =>
    by_cases hp : p.1 = k
    · by_cases h : k' = k
      · subst h
        simp [alErase, alLookup, hp, ih]
      · have hpk' : ¬ p.1 = k' := fun hh => h ((hp.symm.trans hh).symm)
        have hk : ¬ k = k' := fun hh => h hh.symm
        simp [alErase, alLookup, hp, h, hpk', hk, ih]
    · by_cases hk' : p.1 = k'
      · have hne : ¬ k' = k := fun hh => hp (hk'.trans hh)
        simp [alErase, alLookup, hp, hk', hne]
      · simp [alErase, alLookup, hp, hk', ih]

theorem alLookup_isSome_iff_mem_keys (m : List (α × β)) (k : α) :
    (alLookup m k).isSome = true ↔ k ∈ alKeys m := by
  induction m with
  | nil => simp [alLookup, alKeys]
  | cons p rest ih =>
    simp only [alKeys, List.map_cons, List.mem_cons]
    by_cases hp : p.1 = k
    · simp [alLookup, hp]
    · have hk : ¬ k = p.1 := fun h => hp h.symm
      simp only [alLookup, if_neg hp]
      rw [ih]
      simp [alKeys, hk]

theorem alLookup_eq_some_mem {m : List (α × β)} {k : α} {v : β}
    (h : alLookup m k = some v) : (k, v) ∈ m := by
  induction m with
  | nil => simp [alLookup] at h
  | cons p rest ih =>
    by_cases hp : p.1 = k
    · simp [alLookup, hp] at h
      have hpv : p = (k, v) := by
        cases p with
        | mk a b => simp_all
      rw [← hpv]
      exact List.mem_cons_self _ _
    · simp [alLookup, hp] at h
      exact List.mem_cons_of_mem _ (ih h)

theorem mem_alSet {m : List (α × β)} {k : α} {v : β} {p : α × β}
    (h : p ∈ alSet m k v) : p = (k, v) ∨ p ∈ m := by
  induction m with
  | nil => simpa [alSet] using h
  | cons q rest ih =>
    by_cases hq : q.1 = k
    · simp [alSet, hq] at h
      rcases h with h | h
      · exact Or.inl h
      · exact Or.inr (List.mem_cons_of_mem _ h)
    · simp [alSet, hq] at h
      rcases h with h | h
      · exact Or.inr (by simp [h])
      · rcases ih h with h' | h'
        · exact Or.inl h'
        · exact Or.inr (List.mem_cons_of_mem _ h')

theorem mem_keys_alSet {m : List (α × β)} {k : α} {v : β} {a : α}
    (h : a ∈ alKeys (alSet m k v)) : a = k ∨ a ∈ alKeys m := by
  simp only [alKeys] at h ⊢
  rcases List.mem_map.1 h with ⟨p, hp, hpa⟩
  rcases mem_alSet hp with h' | h'
  · left
    rw [← hpa, h']
  · right
    rw [← hpa]
    exact List.mem_map_of_mem _ h'

theorem nodupKeys_alSet {m : List (α × β)} (k : α) (v : β)
    (h : (alKeys m).Nodup) : (alKeys (alSet m k v)).Nodup := by
  induction m with
  | nil => simp [alSet, alKeys]
  | cons p rest ih =>
    simp only [alKeys, List.map_cons, List.nodup_cons] at h
    by_cases hp : p.1 = k
    · simp only [alKeys, alSet, if_pos hp, List.map_cons, List.nodup_cons]
      exact ⟨fun hk => h.1 (by rw [hp]; exact hk), h.2⟩
    · simp only [alKeys, alSet, if_neg hp, List.map_cons, List.nodup_cons]
      refine ⟨fun ha => ?_, ih h.2⟩
      rcases mem_keys_alSet (m := rest) ha with h' | h'
      · exact hp h'
      · exact h.1 h'

theorem mem_alErase {m : List (α × β)} {k : α} {p : α × β}
    (h : p ∈ alErase m k) : p ∈ m := by
  induction m with
  | nil => simp [alErase] at h
  | cons q rest ih =>
    by_cases hq : q.1 = k
    · simp only [alErase, if_pos hq] at h
      exact List.mem_cons_of_mem _ (ih h)
    · simp only [alErase, if_neg hq, List.mem_cons] at h
      rcases h with h | h
      · simp [h]
      · exact List.mem_cons_of_mem _ (ih h)

theorem nodupKeys_alErase {m : List (α × β)} (k : α)
    (h : (alKeys m).Nodup) : (alKeys (alErase m k)).Nodup := by
  induction m with
  | nil => simp [alErase, alKeys]
  | cons p rest ih =>
    simp only [alKeys, List.map_cons, List.nodup_cons] at h
    by_cases hp : p.1 = k
    · simp only [alErase, if_pos hp]
      exact ih h.2
    · simp only [alErase, if_neg hp, alKeys, List.map_cons, List.nodup_cons]
      refine ⟨fun hmem => ?_, ih h.2⟩
      rcases List.mem_map.1 hmem with ⟨q, hq, hqa⟩
      refine h.1 ?_
      rw [← hqa]
      exact List.mem_map_of_mem _ (mem_alErase hq)

end AssocLemmas

/-! ### Theorems: how one `addChange` call moves the staged lookups -/

theorem orO_none_right {γ : Type} (a : Option γ) : orO a none = a := by
  cases a <;> rfl

theorem orO_some_absorb {γ : Type} (a : Option γ) (x : γ) (b : Option γ) :
    orO (orO a (some x)) b = orO a (some x) := by
  cases a <;> rfl

theorem orO_assoc {γ : Type} (a b c : Option γ) :
    orO (orO a b) c = orO a (orO b c) := by
  cases a <;> rfl

theorem alLookup_addChange_ne (m : List (Nat × ChangeRecord)) (rev : Nat)
    (tpl : RelationTuple) (op : RelOp) (r : Nat) (h : ¬ r = rev) :
    alLookup (addChange m rev tpl op) r = alLookup m r := by
  unfold addChange
  rw [alLookup_alSet]
  simp [h]

theorem alLookup_addChange_self (m : List (Nat × ChangeRecord)) (rev : Nat)
    (tpl : RelationTuple) (op : RelOp) :
    alLookup (addChange m rev tpl op) rev =
      some (applyOpToRecord ((alLookup m rev).getD emptyRecord) tpl op) := by
  unfold addChange
  rw [alLookup_alSet]
  simp

theorem stagedTouch_addChange (m : List (Nat × ChangeRecord)) (rev : Nat)
    (tpl : RelationTuple) (op : RelOp) (r : Nat) (k : String) :
    stagedTouch (addChange m rev tpl op) r k =
      if rev = r ∧ op = RelOp.TOUCH ∧ tupleString tpl = k then some tpl
      else stagedTouch m r k := by
  by_cases hr : r = rev
  · subst hr
    rw [stagedTouch, alLookup_addChange_self]
    cases op with
    | TOUCH =>
      simp only [applyOpToRecord, Option.getD_some]
      rw [alLookup_alSet]
      by_cases hk : k = tupleString tpl
      · simp [hk, stagedTouch]
      · have hk2 : ¬ tupleString tpl = k := fun h => hk h.symm
        simp [hk, hk2, stagedTouch]
    | DELETE =>
      simp only [applyOpToRecord, Option.getD_some]
      by_cases ht :
          (alLookup ((alLookup m r).getD emptyRecord).tupleTouches
            (tupleString tpl)).isSome
      · simp [ht, stagedTouch]
      · simp [ht, stagedTouch]
  · have hcond : ¬ (rev = r ∧ op = RelOp.TOUCH ∧ tupleString tpl = k) :=
      fun hc => hr hc.1.symm
    rw [stagedTouch, alLookup_addChange_ne m rev tpl op r hr, if_neg hcond]
    rfl

theorem stagedDelete_addChange_touch (m : List (Nat × ChangeRecord))
    (rev : Nat) (tpl : RelationTuple) (r : Nat) (k : String) :
    stagedDelete (addChange m rev tpl RelOp.TOUCH) r k =
      if rev = r ∧ tupleString tpl = k then none
      else stagedDelete m r k := by
  by_cases hr : r = rev
  · subst hr
    rw [stagedDelete, alLookup_addChange_self]
    simp only [applyOpToRecord, Option.getD_some]
    rw [alLookup_alErase]
    by_cases hk : k = tupleString tpl
    · simp [hk]
    · have hk2 : ¬ tupleString tpl = k := fun h => hk h.symm
      simp [hk, hk2, stagedDelete]
  · have hcond : ¬ (rev = r ∧ tupleString tpl = k) := fun hc => hr hc.1.symm
    rw [stagedDelete, alLookup_addChange_ne m rev tpl RelOp.TOUCH r hr,
      if_neg hcond]
    rfl

theorem stagedDelete_addChange_delete (m : List (Nat × ChangeRecord))
    (rev : Nat) (tpl : RelationTuple) (r : Nat) (k : String) :
    stagedDelete (addChange m rev tpl RelOp.DELETE) r k =
      if rev = r ∧ tupleString tpl = k then
        (if (stagedTouch m r k).isSome then stagedDelete m r k else some tpl)
      else stagedDelete m r k := by
  by_cases hr : r = rev
  · subst hr
    rw [stagedDelete, alLookup_addChange_self]
    simp only [applyOpToRecord, Option.getD_some]
    by_cases ht :
        (alLookup ((alLookup m r).getD emptyRecord).tupleTouches
          (tupleString tpl)).isSome
    · rw [if_pos ht]
      by_cases hk : tupleString tpl = k
      · rw [if_pos (show True ∧ tupleString tpl = k from ⟨trivial, hk⟩)]
        have hts : (stagedTouch m r k).isSome = true := by
          rw [stagedTouch, ← hk]
          exact ht
        rw [if_pos hts]
        rfl
      · rw [if_neg (show ¬ (True ∧ tupleString tpl = k) from fun hc => hk hc.2)]
        rfl
    · rw [if_neg ht]
      show alLookup
          (alSet ((alLookup m r).getD emptyRecord).tupleDeletes
            (tupleString tpl) tpl) k = _
      rw [alLookup_alSet]
      by_cases hk : tupleString tpl = k
      · rw [if_pos hk.symm]
        rw [if_pos (show True ∧ tupleString tpl = k from ⟨trivial, hk⟩)]
        have hts : (stagedTouch m r k).isSome = false := by
          rw [stagedTouch, ← hk]
          exact Bool.eq_false_iff.mpr ht
        rw [hts]
        simp
      · rw [if_neg (show ¬ k = tupleString tpl from fun h => hk h.symm)]
        rw [if_neg (show ¬ (True ∧ tupleString tpl = k) from fun hc => hk hc.2)]
        rfl
  · have hcond : ¬ (rev = r ∧ tupleString tpl = k) := fun hc => hr hc.1.symm
    rw [stagedDelete, alLookup_addChange_ne m rev tpl RelOp.DELETE r hr,
      if_neg hcond]
    rfl

theorem presence_addChange (m : List (Nat × ChangeRecord)) (rev : Nat)
    (tpl : RelationTuple) (op : RelOp) (r : Nat) :
    (alLookup (addChange m rev tpl op) r).isSome =
      if r = rev then true else (alLookup m r).isSome := by
  by_cases hr : r = rev
  · subst hr
    rw [alLookup_addChange_self]
    simp
  · rw [alLookup_addChange_ne m rev tpl op r hr, if_neg hr]


/-! ### Theorems: characterizing the staged map after a fold of events -/

theorem lastMatch_foldl_init (p : Event → Prop) [DecidablePred p] :
    ∀ (es : List Event) (a : Option RelationTuple),
      es.foldl (fun acc e => if p e then some e.tpl else acc) a =
        orO (lastMatch p es) a := by
  intro es
  induction es with
  | nil =>
    intro a
    simp [lastMatch, orO]
  | cons e rest ih =>
    intro a
    rw [List.foldl_cons]
    rw [ih]
    have hcons : lastMatch p (e :: rest) =
        orO (lastMatch p rest) (if p e then some e.tpl else none) := by
      show rest.foldl (fun acc e => if p e then some e.tpl else acc)
          (if p e then some e.tpl else none) = _
      rw [ih]
    rw [hcons]
    show orO (lastMatch p rest) (if p e then some e.tpl else a) =
      orO (orO (lastMatch p rest) (if p e then some e.tpl else none)) a
    by_cases hp : p e
    · rw [if_pos hp, if_pos hp]
      cases lastMatch p rest <;> rfl
    · rw [if_neg hp, if_neg hp]
      cases lastMatch p rest <;> rfl

theorem lastMatch_cons (p : Event → Prop) [DecidablePred p] (e : Event)
    (rest : List Event) :
    lastMatch p (e :: rest) =
      orO (lastMatch p rest) (if p e then some e.tpl else none) := by
  rw [lastMatch, List.foldl_cons, lastMatch_foldl_init]

theorem lastMatch_isSome_iff (p : Event → Prop) [DecidablePred p]
    (es : List Event) :
    (lastMatch p es).isSome = true ↔ ∃ e ∈ es, p e := by
  induction es with
  | nil => simp [lastMatch]
  | cons e rest ih =>
    rw [lastMatch_cons]
    by_cases hp : p e
    · rw [if_pos hp]
      constructor
      · intro _
        exact ⟨e, List.mem_cons_self _ _, hp⟩
      · intro _
        cases lastMatch p rest <;> simp [orO]
    · rw [if_neg hp]
      rw [orO_none_right, ih]
      constructor
      · rintro ⟨e', he', hpe'⟩
        exact ⟨e', List.mem_cons_of_mem _ he', hpe'⟩
      · rintro ⟨e', he', hpe'⟩
        rcases List.mem_cons.1 he' with rfl | he'
        · exact absurd hpe' hp
        · exact ⟨e', he', hpe'⟩

theorem lastMatch_eq_some (p : Event → Prop) [DecidablePred p]
    {es : List Event} {t : RelationTuple} (h : lastMatch p es = some t) :
    ∃ e ∈ es, p e ∧ e.tpl = t := by
  induction es with
  | nil => simp [lastMatch] at h
  | cons e rest ih =>
    rw [lastMatch_cons] at h
    rcases hrest : lastMatch p rest with _ | t'
    · rw [hrest] at h
      by_cases hp : p e
      · rw [if_pos hp] at h
        simp [orO] at h
        exact ⟨e, List.mem_cons_self _ _, hp, h⟩
      · rw [if_neg hp] at h
        simp [orO] at h
    · rw [hrest] at h
      simp [orO] at h
      subst h
      rcases ih hrest with ⟨e', he', hpe', het⟩
      exact ⟨e', List.mem_cons_of_mem _ he', hpe', het⟩

theorem stagedTouch_foldl (es : List Event) :
    ∀ (m : List (Nat × ChangeRecord)) (r : Nat) (k : String),
      stagedTouch (es.foldl addChangeEv m) r k =
        orO (lastTouchOpt es r k) (stagedTouch m r k) := by
  induction es with
  | nil =>
    intro m r k
    simp [lastTouchOpt, lastMatch, orO]
  | cons e rest ih =>
    intro m r k
    rw [List.foldl_cons, ih]
    rw [show addChangeEv m e = addChange m e.rev e.tpl e.op from rfl]
    rw [stagedTouch_addChange]
    rw [show lastTouchOpt (e :: rest) r k =
      orO (lastTouchOpt rest r k)
        (if touchPred r k e then some e.tpl else none) from
      lastMatch_cons _ _ _]
    by_cases hp : touchPred r k e
    · rw [if_pos hp, if_pos (show e.rev = r ∧ e.op = RelOp.TOUCH ∧
        tupleString e.tpl = k from hp)]
      rw [orO_assoc]
      rfl
    · rw [if_neg hp, if_neg (show ¬ (e.rev = r ∧ e.op = RelOp.TOUCH ∧
        tupleString e.tpl = k) from hp)]
      rw [orO_none_right]

theorem hasTouchAt_cons (e : Event) (rest : List Event) (r : Nat)
    (k : String) :
    hasTouchAt (e :: rest) r k ↔ touchPred r k e ∨ hasTouchAt rest r k := by
  unfold hasTouchAt
  constructor
  · rintro ⟨e', he', hp⟩
    rcases List.mem_cons.1 he' with rfl | he'
    · exact Or.inl hp
    · exact Or.inr ⟨e', he', hp⟩
  · rintro (hp | ⟨e', he', hp⟩)
    · exact ⟨e, List.mem_cons_self _ _, hp⟩
    · exact ⟨e', List.mem_cons_of_mem _ he', hp⟩

theorem stagedDelete_foldl (es : List Event) :
    ∀ (m : List (Nat × ChangeRecord)) (r : Nat) (k : String),
      stagedDelete (es.foldl addChangeEv m) r k =
        if hasTouchAt es r k then none
        else if (stagedTouch m r k).isSome then stagedDelete m r k
        else orO (lastDeleteOpt es r k) (stagedDelete m r k) := by
  induction es with
  | nil =>
    intro m r k
    rw [if_neg (show ¬ hasTouchAt [] r k from by simp [hasTouchAt])]
    simp only [List.foldl_nil, lastDeleteOpt, lastMatch, List.foldl_nil]
    by_cases hs : (stagedTouch m r k).isSome
    · rw [if_pos hs]
    · rw [if_neg hs]
      rfl
  | cons e rest ih =>
    intro m r k
    rw [List.foldl_cons, ih]
    rw [show lastDeleteOpt (e :: rest) r k =
      orO (lastDeleteOpt rest r k)
        (if deletePred r k e then some e.tpl else none) from
      lastMatch_cons _ _ _]
    obtain ⟨erev, etpl, eop⟩ := e
    cases eop with
    | TOUCH =>
      rw [show addChangeEv m ⟨erev, etpl, RelOp.TOUCH⟩ =
        addChange m erev etpl RelOp.TOUCH from rfl]
      by_cases hp : erev = r ∧ tupleString etpl = k
      · -- the head is a TOUCH at (r, k): everything collapses to none
        have hT : hasTouchAt (⟨erev, etpl, RelOp.TOUCH⟩ :: rest) r k :=
          (hasTouchAt_cons _ _ _ _).2 (Or.inl ⟨hp.1, rfl, hp.2⟩)
        rw [if_pos hT]
        by_cases hTrest : hasTouchAt rest r k
        · rw [if_pos hTrest]
        · rw [if_neg hTrest]
          have hts : (stagedTouch (addChange m erev etpl RelOp.TOUCH) r
              k).isSome = true := by
            rw [stagedTouch_addChange,
              if_pos (show erev = r ∧ RelOp.TOUCH = RelOp.TOUCH ∧
                tupleString etpl = k from ⟨hp.1, rfl, hp.2⟩)]
            rfl
          rw [if_pos hts]
          rw [stagedDelete_addChange_touch,
            if_pos (show erev = r ∧ tupleString etpl = k from hp)]
      · -- the head TOUCH concerns another (rev, key): nothing changes
        have hpn : ¬ touchPred r k ⟨erev, etpl, RelOp.TOUCH⟩ := by
          intro hc
          exact hp ⟨hc.1, hc.2.2⟩
        have hprop : ¬ (erev = r ∧ RelOp.TOUCH = RelOp.TOUCH ∧
            tupleString etpl = k) := fun hc => hp ⟨hc.1, hc.2.2⟩
        have hpd : ¬ deletePred r k ⟨erev, etpl, RelOp.TOUCH⟩ := by
          intro hc
          exact absurd hc.2.1 (by simp)
        rw [if_neg hpd, orO_none_right]
        rw [stagedTouch_addChange, if_neg hprop]
        rw [stagedDelete_addChange_touch,
          if_neg (show ¬ (erev = r ∧ tupleString etpl = k) from hp)]
        by_cases hTrest : hasTouchAt rest r k
        · rw [if_pos hTrest,
            if_pos ((hasTouchAt_cons _ _ _ _).2 (Or.inr hTrest))]
        · rw [if_neg hTrest,
            if_neg (show ¬ hasTouchAt (⟨erev, etpl, RelOp.TOUCH⟩ :: rest) r k
              from fun h =>
                hTrest (((hasTouchAt_cons _ _ _ _).1 h).resolve_left hpn))]
    | DELETE =>
      rw [show addChangeEv m ⟨erev, etpl, RelOp.DELETE⟩ =
        addChange m erev etpl RelOp.DELETE from rfl]
      have hTiff : hasTouchAt (⟨erev, etpl, RelOp.DELETE⟩ :: rest) r k ↔
          hasTouchAt rest r k := by
        rw [hasTouchAt_cons]
        refine ⟨fun h => ?_, Or.inr⟩
        rcases h with hc | h
        · exact absurd hc.2.1 (by simp)
        · exact h
      have hTprop : ¬ (erev = r ∧ RelOp.DELETE = RelOp.TOUCH ∧
          tupleString etpl = k) := fun hc => by simp at hc
      rw [stagedTouch_addChange, if_neg hTprop]
      rw [stagedDelete_addChange_delete]
      by_cases hp : erev = r ∧ tupleString etpl = k
      · rw [if_pos hp]
        have hpd : deletePred r k ⟨erev, etpl, RelOp.DELETE⟩ := ⟨hp.1, rfl, hp.2⟩
        rw [if_pos (show deletePred r k ⟨erev, etpl, RelOp.DELETE⟩ from hpd)]
        by_cases hTrest : hasTouchAt rest r k
        · rw [if_pos ((hTiff).2 hTrest), if_pos hTrest]
        · rw [if_neg fun h => hTrest ((hTiff).1 h), if_neg hTrest]
          by_cases hts : (stagedTouch m r k).isSome
          · rw [if_pos hts, if_pos hts, if_pos hts]
          · rw [if_neg hts, if_neg hts]
            rw [orO_some_absorb]
            rw [if_neg hts]
      · rw [if_neg hp]
        have hpd : ¬ deletePred r k ⟨erev, etpl, RelOp.DELETE⟩ := by
          intro hc
          exact hp ⟨hc.1, hc.2.2⟩
        rw [if_neg hpd, orO_none_right]
        by_cases hTrest : hasTouchAt rest r k
        · rw [if_pos ((hTiff).2 hTrest), if_pos hTrest]
        · rw [if_neg fun h => hTrest ((hTiff).1 h), if_neg hTrest]

theorem presence_foldl (es : List Event) :
    ∀ (m : List (Nat × ChangeRecord)) (r : Nat),
      (alLookup (es.foldl addChangeEv m) r).isSome =
        if ∃ e ∈ es, e.rev = r then true else (alLookup m r).isSome := by
  induction es with
  | nil =>
    intro m r
    simp
  | cons e rest ih =>
    intro m r
    rw [List.foldl_cons, ih]
    rw [show addChangeEv m e = addChange m e.rev e.tpl e.op from rfl]
    rw [presence_addChange]
    by_cases hr : r = e.rev
    · rw [if_pos hr]
      have h1 : ∃ x ∈ e :: rest, x.rev = r := ⟨e, List.mem_cons_self _ _, hr.symm⟩
      rw [if_pos h1]
      by_cases h2 : ∃ x ∈ rest, x.rev = r
      · rw [if_pos h2]
      · rw [if_neg h2]
    · rw [if_neg hr]
      by_cases h2 : ∃ x ∈ rest, x.rev = r
      · have h1 : ∃ x ∈ e :: rest, x.rev = r := by
          rcases h2 with ⟨x, hx, hxr⟩
          exact ⟨x, List.mem_cons_of_mem _ hx, hxr⟩
        rw [if_pos h2, if_pos h1]
      · have h1 : ¬ ∃ x ∈ e :: rest, x.rev = r := by
          rintro ⟨x, hx, hxr⟩
          rcases List.mem_cons.1 hx with rfl | hx
          · exact hr hxr.symm
          · exact h2 ⟨x, hx, hxr⟩
        rw [if_neg h2, if_neg h1]


/-! ### Theorems: well-formedness of the staged map, and counting -/

theorem wfRecord_empty : WfRecord emptyRecord := by
  refine ⟨List.nodup_nil, List.nodup_nil, ?_, ?_⟩ <;>
    intro p hp <;> simp [emptyRecord] at hp

theorem keyConsistent_alSet {l : List (String × RelationTuple)}
    (v : RelationTuple) (h : keyConsistent l) :
    keyConsistent (alSet l (tupleString v) v) := by
  intro p hp
  rcases mem_alSet hp with h' | h'
  · rw [h']
  · exact h p h'

theorem keyConsistent_alErase {l : List (String × RelationTuple)} (k : String)
    (h : keyConsistent l) : keyConsistent (alErase l k) :=
  fun p hp => h p (mem_alErase hp)

theorem wfRecord_applyOp {rec : ChangeRecord} (tpl : RelationTuple)
    (op : RelOp) (h : WfRecord rec) : WfRecord (applyOpToRecord rec tpl op) := by
  obtain ⟨hnt, hnd, hct, hcd⟩ := h
  cases op with
  | TOUCH =>
    exact ⟨nodupKeys_alSet _ _ hnt, nodupKeys_alErase _ hnd,
      keyConsistent_alSet tpl hct, keyConsistent_alErase _ hcd⟩
  | DELETE =>
    by_cases ht : (alLookup rec.tupleTouches (tupleString tpl)).isSome
    · simp only [applyOpToRecord, if_pos ht]
      exact ⟨hnt, hnd, hct, hcd⟩
    · simp only [applyOpToRecord, if_neg ht]
      exact ⟨hnt, nodupKeys_alSet _ _ hnd, hct, keyConsistent_alSet tpl hcd⟩

theorem wfStaged_addChange {m : List (Nat × ChangeRecord)} (rev : Nat)
    (tpl : RelationTuple) (op : RelOp) (h : WfStaged m) :
    WfStaged (addChange m rev tpl op) := by
  obtain ⟨hnk, hrecs⟩ := h
  refine ⟨nodupKeys_alSet _ _ hnk, ?_⟩
  intro p hp
  rcases mem_alSet hp with h' | h'
  · rw [h']
    have hbase : WfRecord ((alLookup m rev).getD emptyRecord) := by
      rcases hlk : alLookup m rev with _ | rec
      · simpa using wfRecord_empty
      · have := hrecs (rev, rec) (alLookup_eq_some_mem hlk)
        simpa using this
    exact wfRecord_applyOp tpl op hbase
  · exact hrecs p h'

theorem wfStaged_foldl (es : List Event) :
    ∀ m, WfStaged m → WfStaged (es.foldl addChangeEv m) := by
  induction es with
  | nil => intro m h; exact h
  | cons e rest ih =>
    intro m h
    rw [List.foldl_cons]
    exact ih _ (wfStaged_addChange e.rev e.tpl e.op h)

theorem wfStaged_nil : WfStaged [] := by
  constructor
  · simp [alKeys]
  · intro p hp
    simp at hp

theorem wfStaged_stageChanges (afterRevision newRevision : Nat)
    (rows : List TupleRow) :
    WfStaged (stageChanges afterRevision newRevision rows) :=
  wfStaged_foldl _ [] wfStaged_nil

theorem watchEvents_rev_mem {afterRevision newRevision : Nat}
    {rows : List TupleRow} {e : Event}
    (h : e ∈ watchEvents afterRevision newRevision rows) :
    afterRevision < e.rev ∧ e.rev ≤ newRevision := by
  rw [watchEvents, List.mem_flatMap] at h
  rcases h with ⟨row, _, he⟩
  rw [rowEvents] at he
  rcases List.mem_append.1 he with he | he
  · by_cases hc : afterRevision < row.createdTxn ∧ row.createdTxn ≤ newRevision
    · rw [if_pos hc] at he
      simp at he
      rw [he]
      exact hc
    · rw [if_neg hc] at he
      simp at he
  · by_cases hc : afterRevision < row.deletedTxn ∧ row.deletedTxn ≤ newRevision
    · rw [if_pos hc] at he
      simp at he
      rw [he]
      exact hc
    · rw [if_neg hc] at he
      simp at he

theorem countP_eq_one_of_nodup_mem {γ : Type} [DecidableEq γ] :
    ∀ {l : List γ} {a : γ}, l.Nodup → a ∈ l →
      l.countP (fun x => decide (x = a)) = 1 := by
  intro l
  induction l with
  | nil => intro a _ ha; simp at ha
  | cons x rest ih =>
    intro a hnd ha
    rw [List.nodup_cons] at hnd
    rw [List.countP_cons]
    rcases List.mem_cons.1 ha with rfl | ha
    · have hzero : rest.countP (fun y => decide (y = a)) = 0 := by
        rw [List.countP_eq_zero]
        intro y hy
        simp only [decide_eq_true_eq]
        intro hya
        exact hnd.1 (hya ▸ hy)
      rw [hzero]
      simp
    · have hxa : ¬ x = a := fun hxa => hnd.1 (hxa ▸ ha)
      rw [ih hnd.2 ha]
      simp [hxa]

theorem countP_value_eq_one {l : List (String × RelationTuple)}
    {t : RelationTuple} (hnd : (alKeys l).Nodup) (hkc : keyConsistent l)
    (hlk : alLookup l (tupleString t) = some t) :
    l.countP (fun p => decide (p.2 = t)) = 1 := by
  induction l with
  | nil => simp [alLookup] at hlk
  | cons p rest ih =>
    simp only [alKeys, List.map_cons, List.nodup_cons] at hnd
    have hkcr : keyConsistent rest := fun q hq => hkc q (List.mem_cons_of_mem _ hq)
    by_cases hp : p.1 = tupleString t
    · rw [alLookup, if_pos hp] at hlk
      have hpt : p.2 = t := by
        injection hlk
      rw [List.countP_cons]
      simp only [decide_eq_true_eq]
      rw [if_pos hpt]
      have hzero : rest.countP (fun q => decide (q.2 = t)) = 0 := by
        rw [List.countP_eq_zero]
        intro q hq
        simp only [decide_eq_true_eq]
        intro hqt
        have : q.1 = tupleString t := by
          rw [hkcr q hq, hqt]
        exact hnd.1 (by
          rw [hp, ← this]
          exact List.mem_map_of_mem _ hq)
      rw [hzero]
    · rw [alLookup, if_neg hp] at hlk
      have hpt : ¬ p.2 = t := by
        intro hpt
        exact hp (by rw [hkc p (List.mem_cons_self _ _), hpt])
      rw [List.countP_cons]
      simp only [decide_eq_true_eq]
      rw [if_neg hpt, ih hnd.2 hkcr hlk]

theorem countP_key_eq_zero {l : List (String × RelationTuple)} {k : String}
    (hkc : keyConsistent l) (hlk : alLookup l k = none) :
    l.countP (fun p => decide (tupleString p.2 = k)) = 0 := by
  rw [List.countP_eq_zero]
  intro q hq
  simp only [decide_eq_true_eq]
  intro hqk
  have hmem : k ∈ alKeys l := by
    rw [← hqk, ← hkc q hq]
    exact List.mem_map_of_mem _ hq
  have := (alLookup_isSome_iff_mem_keys l k).2 hmem
  rw [hlk] at this
  simp at this


/-! ### Theorems: emission -/

theorem loadChangesPure_eq (afterRevision newRevision : Nat)
    (rows : List TupleRow) :
    loadChangesPure afterRevision newRevision rows =
      (List.insertionSort (· ≤ ·)
          (alKeys (stageChanges afterRevision newRevision rows))).map
        (fun rev =>
          ⟨rev, emitRecord
            ((alLookup (stageChanges afterRevision newRevision rows)
              rev).getD emptyRecord)⟩) := rfl

theorem pairwise_lt_of_sorted_nodup : ∀ {l : List Nat},
    l.Pairwise (· ≤ ·) → l.Nodup → l.Pairwise (· < ·) := by
  intro l
  induction l with
  | nil =>
    intro _ _
    exact List.Pairwise.nil
  | cons x rest ih =>
    intro hle hnd
    rw [List.pairwise_cons] at hle ⊢
    rw [List.nodup_cons] at hnd
    refine ⟨fun y hy => ?_, ih hle.2 hnd.2⟩
    exact lt_of_le_of_ne (hle.1 y hy) (fun hxy => hnd.1 (hxy ▸ hy))

theorem loadChanges_revisions (afterRevision newRevision : Nat)
    (rows : List TupleRow) :
    (loadChangesPure afterRevision newRevision rows).map
        (fun rc => rc.revision) =
      List.insertionSort (· ≤ ·)
        (alKeys (stageChanges afterRevision newRevision rows)) := by
  rw [loadChangesPure_eq, List.map_map]
  exact List.map_id _

theorem loadChanges_revisions_nodup (afterRevision newRevision : Nat)
    (rows : List TupleRow) :
    ((loadChangesPure afterRevision newRevision rows).map
      (fun rc => rc.revision)).Nodup := by
  rw [loadChanges_revisions]
  exact ((List.perm_insertionSort _ _).nodup_iff).2
    (wfStaged_stageChanges afterRevision newRevision rows).1

theorem mem_loadChanges_revisions {afterRevision newRevision : Nat}
    {rows : List TupleRow} {r : Nat} :
    r ∈ (loadChangesPure afterRevision newRevision rows).map
        (fun rc => rc.revision) ↔
      (alLookup (stageChanges afterRevision newRevision rows) r).isSome
        = true := by
  rw [loadChanges_revisions, List.mem_insertionSort]
  exact (alLookup_isSome_iff_mem_keys _ _).symm

theorem emitRecord_touch_count {rec : ChangeRecord} {t : RelationTuple}
    (hnd : (alKeys rec.tupleTouches).Nodup)
    (hkc : keyConsistent rec.tupleTouches)
    (ht : alLookup rec.tupleTouches (tupleString t) = some t) :
    (emitRecord rec).countP (fun c => decide (c = (RelOp.TOUCH, t))) = 1 := by
  rw [emitRecord, List.countP_append, List.countP_map, List.countP_map]
  have h1 : rec.tupleTouches.countP
      ((fun c => decide (c = ((RelOp.TOUCH : RelOp), t))) ∘
        (fun p => (RelOp.TOUCH, p.2))) =
      rec.tupleTouches.countP (fun p => decide (p.2 = t)) := by
    apply List.countP_congr
    intro p _
    simp [Function.comp, Prod.mk.injEq]
  have h2 : rec.tupleDeletes.countP
      ((fun c => decide (c = ((RelOp.TOUCH : RelOp), t))) ∘
        (fun p => (RelOp.DELETE, p.2))) = 0 := by
    rw [List.countP_eq_zero]
    intro p _
    show decide ((RelOp.DELETE, p.2) = ((RelOp.TOUCH : RelOp), t)) ≠ true
    simp [Prod.mk.injEq]
  rw [h1, h2, countP_value_eq_one hnd hkc ht]

theorem emitRecord_delete_count {rec : ChangeRecord} {t : RelationTuple}
    (hkc : keyConsistent rec.tupleDeletes)
    (hd : alLookup rec.tupleDeletes (tupleString t) = none) :
    (emitRecord rec).countP
      (fun c => decide (c.1 = RelOp.DELETE ∧
        tupleString c.2 = tupleString t)) = 0 := by
  rw [emitRecord, List.countP_append, List.countP_map, List.countP_map]
  have h1 : rec.tupleTouches.countP
      ((fun c => decide (c.1 = RelOp.DELETE ∧
          tupleString c.2 = tupleString t)) ∘
        (fun p => (RelOp.TOUCH, p.2))) = 0 := by
    rw [List.countP_eq_zero]
    intro p _
    show decide ((RelOp.TOUCH : RelOp) = RelOp.DELETE ∧
      tupleString p.2 = tupleString t) ≠ true
    simp
  have h2 : rec.tupleDeletes.countP
      ((fun c => decide (c.1 = RelOp.DELETE ∧
          tupleString c.2 = tupleString t)) ∘
        (fun p => (RelOp.DELETE, p.2))) =
      rec.tupleDeletes.countP
        (fun p => decide (tupleString p.2 = tupleString t)) := by
    apply List.countP_congr
    intro p _
    simp [Function.comp]
  rw [h1, h2, countP_key_eq_zero hkc hd]


/-! ### Theorems: loadChanges record extraction and revision bounds -/

theorem loadChanges_mem_elim {afterRevision newRevision : Nat}
    {rows : List TupleRow} {rc : RevisionChanges}
    (h : rc ∈ loadChangesPure afterRevision newRevision rows) :
    rc.changes = emitRecord
      ((alLookup (stageChanges afterRevision newRevision rows)
        rc.revision).getD emptyRecord) := by
  rw [loadChangesPure_eq] at h
  rcases List.mem_map.1 h with ⟨rev, _, hrc⟩
  rw [← hrc]

theorem staged_rev_bounds {afterRevision newRevision : Nat}
    {rows : List TupleRow} {r : Nat}
    (h : (alLookup (stageChanges afterRevision newRevision rows) r).isSome
      = true) :
    afterRevision < r ∧ r ≤ newRevision := by
  rw [show stageChanges afterRevision newRevision rows =
    (watchEvents afterRevision newRevision rows).foldl addChangeEv []
    from rfl] at h
  rw [presence_foldl] at h
  by_cases he : ∃ e ∈ watchEvents afterRevision newRevision rows, e.rev = r
  · rcases he with ⟨e, hee, her⟩
    have := watchEvents_rev_mem hee
    rw [her] at this
    exact this
  · rw [if_neg he] at h
    simp [alLookup] at h

/-- **C1.** For every revision `R` and tuple `t`, if the watch engine
stages both a TOUCH and a DELETE for `t` at `R` within one poll, then the
emitted `RevisionChanges` for `R` (there is exactly one) contains exactly
one TOUCH for `t` and no DELETE for `t` — tuples being identified by their
canonical string, exactly as `addChange` keys them. -/
theorem C1_touch_supersedes_delete
    (afterRevision newRevision R : Nat) (t : RelationTuple)
    (rows : List TupleRow)
    (hT : (⟨R, t, RelOp.TOUCH⟩ : Event) ∈
      watchEvents afterRevision newRevision rows)
    (_hD : (⟨R, t, RelOp.DELETE⟩ : Event) ∈
      watchEvents afterRevision newRevision rows)
    (hgood : ∀ e ∈ watchEvents afterRevision newRevision rows,
      tupleString e.tpl = tupleString t → e.tpl = t) :
    ((loadChangesPure afterRevision newRevision rows).countP
        (fun rc => decide (rc.revision = R)) = 1) ∧
    ∀ rc ∈ loadChangesPure afterRevision newRevision rows, rc.revision = R →
      rc.changes.countP (fun c => decide (c = (RelOp.TOUCH, t))) = 1 ∧
      rc.changes.countP (fun c => decide (c.1 = RelOp.DELETE ∧
        tupleString c.2 = tupleString t)) = 0 := by
  have hTpred : touchPred R (tupleString t) (⟨R, t, RelOp.TOUCH⟩ : Event) :=
    ⟨rfl, rfl, rfl⟩
  have hhasT : hasTouchAt (watchEvents afterRevision newRevision rows) R
      (tupleString t) := ⟨_, hT, hTpred⟩
  have htch : stagedTouch (stageChanges afterRevision newRevision rows) R
      (tupleString t) = some t := by
    show stagedTouch ((watchEvents afterRevision newRevision rows).foldl
      addChangeEv []) R (tupleString t) = some t
    rw [stagedTouch_foldl]
    rw [show stagedTouch [] R (tupleString t) = none from rfl, orO_none_right]
    have hsome : (lastTouchOpt (watchEvents afterRevision newRevision rows) R
        (tupleString t)).isSome = true :=
      (lastMatch_isSome_iff _ _).2 ⟨_, hT, hTpred⟩
    rcases hopt : lastTouchOpt (watchEvents afterRevision newRevision rows) R
        (tupleString t) with _ | t'
    · rw [hopt] at hsome
      simp at hsome
    · rcases lastMatch_eq_some _ hopt with ⟨e, he, hpe, het⟩
      rw [← het, hgood e he hpe.2.2]
  have hdel : stagedDelete (stageChanges afterRevision newRevision rows) R
      (tupleString t) = none := by
    show stagedDelete ((watchEvents afterRevision newRevision rows).foldl
      addChangeEv []) R (tupleString t) = none
    rw [stagedDelete_foldl, if_pos hhasT]
  have hpres : (alLookup (stageChanges afterRevision newRevision rows)
      R).isSome = true := by
    show (alLookup ((watchEvents afterRevision newRevision rows).foldl
      addChangeEv []) R).isSome = true
    rw [presence_foldl, if_pos ⟨_, hT, rfl⟩]
  rcases hlk : alLookup (stageChanges afterRevision newRevision rows) R with
    _ | rec
  · rw [hlk] at hpres
    simp at hpres
  · have hwf := (wfStaged_stageChanges afterRevision newRevision rows).2 _
      (alLookup_eq_some_mem hlk)
    constructor
    · rw [loadChangesPure_eq, List.countP_map]
      exact countP_eq_one_of_nodup_mem
        (((List.perm_insertionSort _ _).nodup_iff).2
          (wfStaged_stageChanges afterRevision newRevision rows).1)
        (by
          rw [List.mem_insertionSort]
          exact (alLookup_isSome_iff_mem_keys _ _).1 hpres)
    · intro rc hrc hrev
      have hch := loadChanges_mem_elim hrc
      rw [hrev, hlk] at hch
      rw [hch]
      have htch' : alLookup rec.tupleTouches (tupleString t) = some t := by
        have h' := htch
        rw [show stagedTouch (stageChanges afterRevision newRevision rows) R
            (tupleString t) =
          alLookup ((alLookup (stageChanges afterRevision newRevision rows)
            R).getD emptyRecord).tupleTouches (tupleString t) from rfl,
          hlk] at h'
        exact h'
      have hdel' : alLookup rec.tupleDeletes (tupleString t) = none := by
        have h' := hdel
        rw [show stagedDelete (stageChanges afterRevision newRevision rows) R
            (tupleString t) =
          alLookup ((alLookup (stageChanges afterRevision newRevision rows)
            R).getD emptyRecord).tupleDeletes (tupleString t) from rfl,
          hlk] at h'
        exact h'
      exact ⟨emitRecord_touch_count hwf.1 hwf.2.2.1 htch',
        emitRecord_delete_count hwf.2.2.2 hdel'⟩

/-- **C4.** Within one watch subscription the emitted revisions are
strictly increasing: each poll emits its staged records in strictly
ascending revision order, and — since `Watch` feeds the returned
`newRevision` back as the next poll's `afterRevision` — every record of
the later poll carries a revision greater than every record of the
earlier poll. -/
theorem C4_revisions_strictly_increasing
    (afterRevision newRevision1 newRevision2 : Nat)
    (rows1 rows2 : List TupleRow) :
    ((loadChangesPure afterRevision newRevision1 rows1).map
      (fun rc => rc.revision)).Pairwise (· < ·) ∧
    ((loadChangesPure newRevision1 newRevision2 rows2).map
      (fun rc => rc.revision)).Pairwise (· < ·) ∧
    ∀ r₁ ∈ (loadChangesPure afterRevision newRevision1 rows1).map
        (fun rc => rc.revision),
      ∀ r₂ ∈ (loadChangesPure newRevision1 newRevision2 rows2).map
        (fun rc => rc.revision), r₁ < r₂ := by
  refine ⟨?_, ?_, ?_⟩
  · rw [loadChanges_revisions]
    exact pairwise_lt_of_sorted_nodup (List.sorted_insertionSort _ _)
      (((List.perm_insertionSort _ _).nodup_iff).2
        (wfStaged_stageChanges _ _ _).1)
  · rw [loadChanges_revisions]
    exact pairwise_lt_of_sorted_nodup (List.sorted_insertionSort _ _)
      (((List.perm_insertionSort _ _).nodup_iff).2
        (wfStaged_stageChanges _ _ _).1)
  · intro r₁ h₁ r₂ h₂
    have hb₁ := staged_rev_bounds (mem_loadChanges_revisions.1 h₁)
    have hb₂ := staged_rev_bounds (mem_loadChanges_revisions.1 h₂)
    exact lt_of_le_of_lt hb₁.2 hb₂.1


theorem C1_witness :
    ((⟨3, tupleA, RelOp.TOUCH⟩ : Event) ∈ watchEvents 2 5 rowsBoth) ∧
    ((⟨3, tupleA, RelOp.DELETE⟩ : Event) ∈ watchEvents 2 5 rowsBoth) ∧
    (∀ e ∈ watchEvents 2 5 rowsBoth,
      tupleString e.tpl = tupleString tupleA → e.tpl = tupleA) ∧
    (((loadChangesPure 2 5 rowsBoth).countP
        (fun rc => decide (rc.revision = 3)) = 1) ∧
      ∀ rc ∈ loadChangesPure 2 5 rowsBoth, rc.revision = 3 →
        rc.changes.countP (fun c => decide (c = (RelOp.TOUCH, tupleA))) = 1 ∧
        rc.changes.countP (fun c => decide (c.1 = RelOp.DELETE ∧
          tupleString c.2 = tupleString tupleA)) = 0) :=
  ⟨by decide, by decide, by decide,
    C1_touch_supersedes_delete 2 5 3 tupleA rowsBoth (by decide) (by decide)
      (by decide)⟩

theorem C4_witness :
    (2 ∈ (loadChangesPure 0 2 rowsPoll1).map (fun rc => rc.revision)) ∧
    (4 ∈ (loadChangesPure 2 5 rowsPoll2).map (fun rc => rc.revision)) ∧
    2 < 4 :=
  ⟨by decide, by decide,
    (C4_revisions_strictly_increasing 0 2 5 rowsPoll1 rowsPoll2).2.2 2
      (by decide) 4 (by decide)⟩


/-! ### Theorems: per-row guards (C10) and backpressure (C5) -/

/-- **C10.** A single stored row whose `created_txn` and `deleted_txn`
both fall within the polled interval `(afterRevision, newRevision]`
produces two events from the one row — a TOUCH at `created_txn` followed
by a DELETE at `deleted_txn` — while a row matched on only one bound
contributes only that one event, because each guard re-checks its own
transaction id against the interval. -/
theorem C10_row_guards (afterRevision newRevision : Nat) (row : TupleRow) :
    ((afterRevision < row.createdTxn ∧ row.createdTxn ≤ newRevision) →
      (afterRevision < row.deletedTxn ∧ row.deletedTxn ≤ newRevision) →
      rowEvents afterRevision newRevision row =
        [⟨row.createdTxn, row.tpl, RelOp.TOUCH⟩,
         ⟨row.deletedTxn, row.tpl, RelOp.DELETE⟩]) ∧
    ((afterRevision < row.createdTxn ∧ row.createdTxn ≤ newRevision) →
      ¬ (afterRevision < row.deletedTxn ∧ row.deletedTxn ≤ newRevision) →
      rowEvents afterRevision newRevision row =
        [⟨row.createdTxn, row.tpl, RelOp.TOUCH⟩]) ∧
    (¬ (afterRevision < row.createdTxn ∧ row.createdTxn ≤ newRevision) →
      (afterRevision < row.deletedTxn ∧ row.deletedTxn ≤ newRevision) →
      rowEvents afterRevision newRevision row =
        [⟨row.deletedTxn, row.tpl, RelOp.DELETE⟩]) := by
  refine ⟨fun hc hd => ?_, fun hc hd => ?_, fun hc hd => ?_⟩
  · rw [rowEvents, if_pos hc, if_pos hd]
    rfl
  · rw [rowEvents, if_pos hc, if_neg hd]
    rfl
  · rw [rowEvents, if_neg hc, if_pos hd]
    rfl

theorem C10_witness :
    ((0 < 1 ∧ 1 ≤ 10) ∧ (0 < 2 ∧ 2 ≤ 10) ∧
      rowEvents 0 10 ⟨tupleA, 1, 2⟩ =
        [⟨1, tupleA, RelOp.TOUCH⟩, ⟨2, tupleA, RelOp.DELETE⟩]) ∧
    (¬ (0 < 0 ∧ 0 ≤ 10) ∧
      rowEvents 0 10 ⟨tupleA, 1, 0⟩ = [⟨1, tupleA, RelOp.TOUCH⟩]) ∧
    (¬ (0 < 11 ∧ 11 ≤ 10) ∧
      rowEvents 0 10 ⟨tupleA, 11, 5⟩ = [⟨5, tupleA, RelOp.DELETE⟩]) :=
  ⟨⟨by decide, by decide,
      (C10_row_guards 0 10 ⟨tupleA, 1, 2⟩).1 (by decide) (by decide)⟩,
   ⟨by decide,
      (C10_row_guards 0 10 ⟨tupleA, 1, 0⟩).2.1 (by decide) (by decide)⟩,
   ⟨by decide,
      (C10_row_guards 0 10 ⟨tupleA, 11, 5⟩).2.2 (by decide) (by decide)⟩⟩

/-- **C5.** If the subscription's output channel is full when the engine
tries to emit a staged `RevisionChanges`, the emission loop immediately
sends `WatchDisconnected` on the error channel and terminates: the
channel state is returned untouched (nothing was delivered, nothing
waited for) and no further staged update is processed. -/
theorem C5_backpressure_disconnects {α : Type} (c : BoundedChan α)
    (x : α) (rest : List α) (hfull : c.cap ≤ c.buf.length) :
    writeStagedUpdates c (x :: rest) = (c, some WatchErr.disconnected) := by
  rw [writeStagedUpdates]
  rw [show trySend c x = none from by
    rw [trySend, if_neg (Nat.not_lt.2 hfull)]]

theorem C5_witness :
    ((⟨1, [⟨1, []⟩]⟩ : BoundedChan RevisionChanges).cap ≤
      (⟨1, [⟨1, []⟩]⟩ : BoundedChan RevisionChanges).buf.length) ∧
    writeStagedUpdates (⟨1, [⟨1, []⟩]⟩ : BoundedChan RevisionChanges)
      [⟨2, []⟩] = (⟨1, [⟨1, []⟩]⟩, some WatchErr.disconnected) :=
  ⟨by decide,
    C5_backpressure_disconnects (⟨1, [⟨1, []⟩]⟩ : BoundedChan RevisionChanges)
      ⟨2, []⟩ [] (by decide)⟩


/-! ### Theorems: order (in)dependence of the collapsing fold (C9) -/

theorem alSet_alSet {α β : Type} [DecidableEq α] (m : List (α × β)) (k : α)
    (v w : β) : alSet (alSet m k v) k w = alSet m k w := by
  induction m with
  | nil => simp [alSet]
  | cons p rest ih =>
    by_cases hp : p.1 = k
    · simp [alSet, hp]
    · simp [alSet, hp, ih]

theorem alErase_idem {α β : Type} [DecidableEq α] (m : List (α × β))
    (k : α) : alErase (alErase m k) k = alErase m k := by
  induction m with
  | nil => simp [alErase]
  | cons p rest ih =>
    by_cases hp : p.1 = k
    · simp [alErase, hp, ih]
    · simp [alErase, hp, ih]

theorem applyOp_touch_eq (rec : ChangeRecord) (tpl : RelationTuple) :
    applyOpToRecord rec tpl RelOp.TOUCH =
      ⟨alSet rec.tupleTouches (tupleString tpl) tpl,
       alErase rec.tupleDeletes (tupleString tpl)⟩ := rfl

theorem applyOp_delete_eq (rec : ChangeRecord) (tpl : RelationTuple) :
    applyOpToRecord rec tpl RelOp.DELETE =
      if (alLookup rec.tupleTouches (tupleString tpl)).isSome then rec
      else ⟨rec.tupleTouches, alSet rec.tupleDeletes (tupleString tpl) tpl⟩ :=
  rfl

theorem applyOp_idem (rec : ChangeRecord) (tpl : RelationTuple) (op : RelOp) :
    applyOpToRecord (applyOpToRecord rec tpl op) tpl op =
      applyOpToRecord rec tpl op := by
  obtain ⟨T, D⟩ := rec
  cases op with
  | TOUCH =>
    simp only [applyOp_touch_eq]
    rw [alSet_alSet, alErase_idem]
  | DELETE =>
    by_cases ht : (alLookup T (tupleString tpl)).isSome
    · simp only [applyOp_delete_eq, ht, if_pos]
    · simp only [applyOp_delete_eq]
      rw [if_neg ht]
      simp only []
      rw [if_neg ht, alSet_alSet]

theorem addChange_idem (m : List (Nat × ChangeRecord)) (rev : Nat)
    (tpl : RelationTuple) (op : RelOp) :
    addChange (addChange m rev tpl op) rev tpl op =
      addChange m rev tpl op := by
  rw [show addChange (addChange m rev tpl op) rev tpl op =
    alSet (addChange m rev tpl op) rev
      (applyOpToRecord
        ((alLookup (addChange m rev tpl op) rev).getD emptyRecord) tpl op)
    from rfl]
  rw [alLookup_addChange_self]
  rw [show ((some (applyOpToRecord ((alLookup m rev).getD emptyRecord)
      tpl op)).getD emptyRecord) =
    applyOpToRecord ((alLookup m rev).getD emptyRecord) tpl op from rfl]
  rw [applyOp_idem]
  rw [show addChange m rev tpl op =
    alSet m rev (applyOpToRecord ((alLookup m rev).getD emptyRecord) tpl op)
    from rfl]
  rw [alSet_alSet]

theorem lastMatch_perm_eq (p : Event → Prop) [DecidablePred p]
    {l₁ l₂ : List Event} (hperm : l₁.Perm l₂)
    (hgood : ∀ e₁ ∈ l₁, ∀ e₂ ∈ l₁, p e₁ → p e₂ → e₁.tpl = e₂.tpl) :
    lastMatch p l₁ = lastMatch p l₂ := by
  rcases h1 : lastMatch p l₁ with _ | t₁
  · rcases h2 : lastMatch p l₂ with _ | t₂
    · rfl
    · rcases lastMatch_eq_some p h2 with ⟨e, he, hpe, _⟩
      have hs : (lastMatch p l₁).isSome = true :=
        (lastMatch_isSome_iff p l₁).2 ⟨e, hperm.mem_iff.2 he, hpe⟩
      rw [h1] at hs
      simp at hs
  · rcases lastMatch_eq_some p h1 with ⟨e₁, he₁, hpe₁, ht₁⟩
    rcases h2 : lastMatch p l₂ with _ | t₂
    · have hs : (lastMatch p l₂).isSome = true :=
        (lastMatch_isSome_iff p l₂).2 ⟨e₁, hperm.mem_iff.1 he₁, hpe₁⟩
      rw [h2] at hs
      simp at hs
    · rcases lastMatch_eq_some p h2 with ⟨e₂, he₂, hpe₂, ht₂⟩
      rw [← ht₁, ← ht₂, hgood e₁ he₁ e₂ (hperm.mem_iff.2 he₂) hpe₁ hpe₂]

theorem lastTouchOpt_perm {l₁ l₂ : List Event} (hperm : l₁.Perm l₂)
    (hgood : KeysInjectiveOn l₁) (r : Nat) (k : String) :
    lastTouchOpt l₁ r k = lastTouchOpt l₂ r k := by
  show lastMatch (touchPred r k) l₁ = lastMatch (touchPred r k) l₂
  exact lastMatch_perm_eq _ hperm (fun e₁ h₁ e₂ h₂ hp₁ hp₂ =>
    hgood e₁ h₁ e₂ h₂ (by rw [hp₁.2.2, hp₂.2.2]))

theorem lastDeleteOpt_perm {l₁ l₂ : List Event} (hperm : l₁.Perm l₂)
    (hgood : KeysInjectiveOn l₁) (r : Nat) (k : String) :
    lastDeleteOpt l₁ r k = lastDeleteOpt l₂ r k := by
  show lastMatch (deletePred r k) l₁ = lastMatch (deletePred r k) l₂
  exact lastMatch_perm_eq _ hperm (fun e₁ h₁ e₂ h₂ hp₁ hp₂ =>
    hgood e₁ h₁ e₂ h₂ (by rw [hp₁.2.2, hp₂.2.2]))

theorem hasTouchAt_perm {l₁ l₂ : List Event} (hperm : l₁.Perm l₂) (r : Nat)
    (k : String) : hasTouchAt l₁ r k ↔ hasTouchAt l₂ r k := by
  unfold hasTouchAt
  constructor <;> rintro ⟨e, he, hp⟩
  · exact ⟨e, hperm.mem_iff.1 he, hp⟩
  · exact ⟨e, hperm.mem_iff.2 he, hp⟩

theorem stagedTouch_stage (es : List Event) (r : Nat) (k : String) :
    stagedTouch (es.foldl addChangeEv []) r k = lastTouchOpt es r k := by
  rw [stagedTouch_foldl]
  rw [show stagedTouch ([] : List (Nat × ChangeRecord)) r k = none from rfl]
  exact orO_none_right _

theorem stagedDelete_stage (es : List Event) (r : Nat) (k : String) :
    stagedDelete (es.foldl addChangeEv []) r k =
      if hasTouchAt es r k then none else lastDeleteOpt es r k := by
  rw [stagedDelete_foldl]
  by_cases hT : hasTouchAt es r k
  · rw [if_pos hT, if_pos hT]
  · rw [if_neg hT, if_neg hT]
    rw [show stagedTouch ([] : List (Nat × ChangeRecord)) r k = none from rfl]
    rw [show stagedDelete ([] : List (Nat × ChangeRecord)) r k = none
      from rfl]
    rw [orO_none_right]
    simp

/-- **C9 counterexample.** The collapsing fold is *not* order-independent
for arbitrary event multisets: two TOUCH events at one revision carrying
distinct tuples that share a canonical string (the key is not injective:
`"a:b" : "c"` and `"a" : "b:c"` both key as `"a:b:c"`) store different
tuples under the shared key depending on the order, so the two
permutations of the same multiset produce different `tupleTouches`
maps. -/
theorem C9_counterexample :
    List.Perm eventsCollide eventsCollide.reverse ∧
    stagedTouch (eventsCollide.foldl addChangeEv []) 5
      (tupleString tupleColl1) = some tupleColl2 ∧
    stagedTouch (eventsCollide.reverse.foldl addChangeEv []) 5
      (tupleString tupleColl1) = some tupleColl1 ∧
    tupleColl1 ≠ tupleColl2 :=
  ⟨by decide, by decide, by decide, by decide⟩

/-- **C9 (amended).** For any multiset of TOUCH and DELETE events whose
canonical strings identify tuples injectively (in particular whenever
distinct tuples have distinct canonical strings, which holds for all
separator-free field values), folding the events through `addChange` in
any order yields the same staged map — the same revisions are present and
the `tupleTouches` and `tupleDeletes` maps agree on every key — and
repeating an event through `addChange` is idempotent. -/
theorem C9_collapse_order_independent (l₁ l₂ : List Event)
    (hgood : KeysInjectiveOn l₁) (hperm : List.Perm l₁ l₂) :
    (∀ r, (alLookup (l₁.foldl addChangeEv []) r).isSome =
      (alLookup (l₂.foldl addChangeEv []) r).isSome) ∧
    (∀ r k, stagedTouch (l₁.foldl addChangeEv []) r k =
        stagedTouch (l₂.foldl addChangeEv []) r k ∧
      stagedDelete (l₁.foldl addChangeEv []) r k =
        stagedDelete (l₂.foldl addChangeEv []) r k) ∧
    (∀ (m : List (Nat × ChangeRecord)) (e : Event),
      addChangeEv (addChangeEv m e) e = addChangeEv m e) := by
  refine ⟨?_, ?_, fun m e => addChange_idem m e.rev e.tpl e.op⟩
  · intro r
    rw [presence_foldl, presence_foldl]
    by_cases h : ∃ e ∈ l₁, e.rev = r
    · rw [if_pos h, if_pos (by
        rcases h with ⟨e, he, hr⟩
        exact ⟨e, hperm.mem_iff.1 he, hr⟩)]
    · rw [if_neg h, if_neg (by
        rintro ⟨e, he, hr⟩
        exact h ⟨e, hperm.mem_iff.2 he, hr⟩)]
  · intro r k
    constructor
    · rw [stagedTouch_stage, stagedTouch_stage]
      exact lastTouchOpt_perm hperm hgood r k
    · rw [stagedDelete_stage, stagedDelete_stage]
      by_cases hT : hasTouchAt l₁ r k
      · rw [if_pos hT, if_pos ((hasTouchAt_perm hperm r k).1 hT)]
      · rw [if_neg hT, if_neg (fun h =>
          hT ((hasTouchAt_perm hperm r k).2 h))]
        exact lastDeleteOpt_perm hperm hgood r k

theorem C9_witness :
    KeysInjectiveOn eventsSwap1 ∧ List.Perm eventsSwap1 eventsSwap2 ∧
    ((∀ r, (alLookup (eventsSwap1.foldl addChangeEv []) r).isSome =
      (alLookup (eventsSwap2.foldl addChangeEv []) r).isSome) ∧
    (∀ r k, stagedTouch (eventsSwap1.foldl addChangeEv []) r k =
        stagedTouch (eventsSwap2.foldl addChangeEv []) r k ∧
      stagedDelete (eventsSwap1.foldl addChangeEv []) r k =
        stagedDelete (eventsSwap2.foldl addChangeEv []) r k) ∧
    (∀ (m : List (Nat × ChangeRecord)) (e : Event),
      addChangeEv (addChangeEv m e) e = addChangeEv m e)) :=
  ⟨by decide, by decide,
    C9_collapse_order_independent eventsSwap1 eventsSwap2 (by decide)
      (by decide)⟩


/-! ### Theorems: query-builder semantics (C6, C7, C8) -/

/-- **C6.** For every revision `R`, the reverse-query base restricts
results to exactly the rows alive at `R`: its where-clause holds of a
stored row iff `created_txn ≤ R` and (`deleted_txn` equals the live
sentinel or `deleted_txn > R`) — the spec's alive-at-`R` predicate. -/
theorem C6_reverse_query_selects_alive_rows (splitAt revision : Nat)
    (row : TupleRow) :
    evalWhere ((reverseQueryBase splitAt revision).initialQueryWhere) row
        = true ↔
      aliveAt revision row = true := by
  show evalWhere (reverseQueryBaseWhere revision) row = true ↔ _
  simp [evalWhere, reverseQueryBaseWhere, evalExpr, colVal, aliveAt,
    transactionFromRevision, liveDeletedTxnID]

/-- **C7.** For every filter, the `QueryTuples` where-clause always
constrains the resource namespace to the filter's required resource type,
adds an equality constraint on object id (resp. relation) exactly when
the corresponding optional field is non-empty, and an empty optional
field acts as a wildcard: a row (alive at the revision) satisfies the
where-clause iff it matches the spec's filter discipline. -/
theorem C7_query_tuples_filter_semantics (splitAt revision : Nat)
    (filter : TupleQueryResourceFilter) (row : TupleRow) :
    evalWhere (QueryTuples splitAt filter revision).initialQueryWhere row
        = true ↔
      (aliveAt revision row = true ∧ matchesFilter filter row = true) := by
  by_cases h1 : filter.optionalResourceId = ""
  · by_cases h2 : filter.optionalResourceRelation = ""
    · have hq : (QueryTuples splitAt filter revision).initialQueryWhere =
          filterToLivingObjects [] revision ++
            [SqlExpr.eqCol Col.namespaceCol (SqlVal.s filter.resourceType)]
          := by
        simp only [QueryTuples]
        rw [if_neg (fun hc => hc h2), if_neg (fun hc => hc h1)]
      rw [hq]
      simp [filterToLivingObjects, evalWhere, evalExpr, colVal, aliveAt,
        matchesFilter, liveDeletedTxnID, h1, h2]
      tauto
    · have hq : (QueryTuples splitAt filter revision).initialQueryWhere =
          filterToLivingObjects [] revision ++
            [SqlExpr.eqCol Col.namespaceCol (SqlVal.s filter.resourceType)] ++
            [SqlExpr.eqCol Col.relationCol
              (SqlVal.s filter.optionalResourceRelation)] := by
        simp only [QueryTuples]
        rw [if_pos h2, if_neg (fun hc => hc h1)]
      rw [hq]
      simp [filterToLivingObjects, evalWhere, evalExpr, colVal, aliveAt,
        matchesFilter, liveDeletedTxnID, h1, h2]
      tauto
  · by_cases h2 : filter.optionalResourceRelation = ""
    · have hq : (QueryTuples splitAt filter revision).initialQueryWhere =
          filterToLivingObjects [] revision ++
            [SqlExpr.eqCol Col.namespaceCol (SqlVal.s filter.resourceType)] ++
            [SqlExpr.eqCol Col.objectID
              (SqlVal.s filter.optionalResourceId)] := by
        simp only [QueryTuples]
        rw [if_neg (fun hc => hc h2), if_pos h1]
      rw [hq]
      simp [filterToLivingObjects, evalWhere, evalExpr, colVal, aliveAt,
        matchesFilter, liveDeletedTxnID, h1, h2]
      tauto
    · have hq : (QueryTuples splitAt filter revision).initialQueryWhere =
          filterToLivingObjects [] revision ++
            [SqlExpr.eqCol Col.namespaceCol (SqlVal.s filter.resourceType)] ++
            [SqlExpr.eqCol Col.objectID
              (SqlVal.s filter.optionalResourceId)] ++
            [SqlExpr.eqCol Col.relationCol
              (SqlVal.s filter.optionalResourceRelation)] := by
        simp only [QueryTuples]
        rw [if_pos h2, if_pos h1]
      rw [hq]
      simp [filterToLivingObjects, evalWhere, evalExpr, colVal, aliveAt,
        matchesFilter, liveDeletedTxnID, h1, h2]
      tauto

/-- **C8.** The builder's initial query size estimate is a pure function
of the filter's string lengths: it equals the sum of the byte lengths of
the resource type, optional resource id and optional resource relation,
and in particular does not depend on the revision or the split
threshold. -/
theorem C8_size_estimate_pure (splitAt splitAt' revision revision' : Nat)
    (filter : TupleQueryResourceFilter) :
    (QueryTuples splitAt filter revision).initialQuerySizeEstimate =
      filter.resourceType.utf8ByteSize +
        filter.optionalResourceId.utf8ByteSize +
        filter.optionalResourceRelation.utf8ByteSize ∧
    (QueryTuples splitAt filter revision).initialQuerySizeEstimate =
      (QueryTuples splitAt' filter revision').initialQuerySizeEstimate :=
  ⟨rfl, rfl⟩


/-! ### Theorems: the schema write path (C2, C3) -/

theorem writeAll_spec {St E : Type} (env : SchemaWriteEnv St E) :
    ∀ (ds : List NsDef) (st : St) (names : List String),
      (∃ e, (writeAll env st ds names).2 = Except.error e ∧
        ∃ i, ∃ h : i < ds.length,
          (writeAll env st ds names).1 = foldWrites env st (ds.take i) ∧
          env.writeNamespace (foldWrites env st (ds.take i))
            (ds.get ⟨i, h⟩) = Except.error e ∧
          ∀ j, ∀ hj : j < i, ∃ st' n,
            env.writeNamespace (foldWrites env st (ds.take j))
              (ds.get ⟨j, Nat.lt_trans hj h⟩) = Except.ok (st', n)) ∨
      ((writeAll env st ds names).2 =
          Except.ok (names ++ ds.map (fun d => d.name)) ∧
        (writeAll env st ds names).1 = foldWrites env st ds ∧
        ∀ j, ∀ hj : j < ds.length, ∃ st' n,
          env.writeNamespace (foldWrites env st (ds.take j))
            (ds.get ⟨j, hj⟩) = Except.ok (st', n)) := by
  intro ds
  induction ds with
  | nil =>
    intro st names
    right
    refine ⟨by simp [writeAll], rfl, ?_⟩
    intro j hj
    simp at hj
  | cons d rest ih =>
    intro st names
    rcases hw : env.writeNamespace st d with e | stn
    · left
      refine ⟨e, ?_, 0, Nat.succ_pos _, ?_, ?_, ?_⟩
      · rw [writeAll, hw]
      · rw [writeAll, hw]
        rfl
      · rw [List.take_zero]
        exact hw
      · intro j hj
        exact absurd hj (Nat.not_lt_zero j)
    · obtain ⟨st', n⟩ := stn
      have hfold : ∀ l, foldWrites env st (d :: l) = foldWrites env st' l := by
        intro l
        simp only [foldWrites, List.foldl_cons]
        rw [hw]
      have hres : writeAll env st (d :: rest) names =
          writeAll env st' rest (names ++ [d.name]) := by
        rw [writeAll, hw]
      rcases ih st' (names ++ [d.name]) with
        ⟨e, herr, i, hi, hst, hfail, hpref⟩ | ⟨hok, hst, hpref⟩
      · left
        refine ⟨e, by rw [hres]; exact herr, i + 1,
          Nat.succ_lt_succ hi, ?_, ?_, ?_⟩
        · rw [hres, List.take_succ_cons, hfold]
          exact hst
        · rw [List.take_succ_cons, hfold]
          exact hfail
        · intro j hj
          cases j with
          | zero =>
            rw [List.take_zero]
            exact ⟨st', n, hw⟩
          | succ j' =>
            rw [List.take_succ_cons, hfold]
            exact hpref j' (Nat.lt_of_succ_lt_succ hj)
      · right
        refine ⟨?_, ?_, ?_⟩
        · rw [hres, hok]
          simp
        · rw [hres, hst, hfold]
        · intro j hj
          cases j with
          | zero =>
            rw [List.take_zero]
            exact ⟨st', n, hw⟩
          | succ j' =>
            rw [List.take_succ_cons, hfold]
            exact hpref j' (Nat.lt_of_succ_lt_succ hj)

/-- **C2 counterexample.** `WriteSchema` is not atomic across the batch:
with a two-definition batch (`A`, `B`) where every check passes and the
second `WriteNamespace` fails, the call returns an error yet the first
definition has been persisted — an observable state holding some but not
all of the batch, contradicting "either every definition in the batch is
stored or none is". -/
theorem C2_counterexample :
    (WriteSchema envPartial [] "schema").2 = Except.error "boom" ∧
    (WriteSchema envPartial [] "schema").1 = ["A"] ∧
    (["A"] : List String) ≠ [] ∧
    (["A"] : List String) ≠ ["A", "B"] :=
  ⟨rfl, rfl, by decide, by decide⟩

/-- **C2 (amended).** `WriteSchema` persists the compiled definitions
sequentially — one `WriteNamespace` call (one transaction) per definition
— only after every definition has been validated. If some write fails,
the error is returned, the definitions before it remain persisted, and
the failing and later definitions are not written; only when every write
succeeds are all definitions persisted, with their names returned in
order. -/
theorem C2_write_schema_sequential {St E : Type} (env : SchemaWriteEnv St E)
    (st : St) (schema : String) (defs : List NsDef)
    (hc : env.compile schema = Except.ok defs)
    (hv : validateAll env st defs defs = none) :
    (∃ e, (WriteSchema env st schema).2 = Except.error e ∧
      ∃ i, ∃ h : i < defs.length,
        (WriteSchema env st schema).1 = foldWrites env st (defs.take i) ∧
        env.writeNamespace (foldWrites env st (defs.take i))
          (defs.get ⟨i, h⟩) = Except.error e ∧
        ∀ j, ∀ hj : j < i, ∃ st' n,
          env.writeNamespace (foldWrites env st (defs.take j))
            (defs.get ⟨j, Nat.lt_trans hj h⟩) = Except.ok (st', n)) ∨
    ((WriteSchema env st schema).2 =
        Except.ok (defs.map (fun d => d.name)) ∧
      (WriteSchema env st schema).1 = foldWrites env st defs ∧
      ∀ j, ∀ hj : j < defs.length, ∃ st' n,
        env.writeNamespace (foldWrites env st (defs.take j))
          (defs.get ⟨j, hj⟩) = Except.ok (st', n)) := by
  have hrun : WriteSchema env st schema = writeAll env st defs [] := by
    rw [WriteSchema, hc]
    show (match validateAll env st defs defs with
      | some e => (st, Except.error e)
      | none => writeAll env st defs []) = _
    rw [hv]
  rw [hrun]
  rcases writeAll_spec env defs st [] with
    ⟨e, herr, i, hi, hst, hfail, hpref⟩ | ⟨hok, hst, hpref⟩
  · exact Or.inl ⟨e, herr, i, hi, hst, hfail, hpref⟩
  · refine Or.inr ⟨?_, hst, hpref⟩
    rw [hok]
    simp

theorem C2_witness :
    (envPartial.compile "schema" = Except.ok [⟨"A"⟩, ⟨"B"⟩]) ∧
    (validateAll envPartial [] [⟨"A"⟩, ⟨"B"⟩] [⟨"A"⟩, ⟨"B"⟩] = none) ∧
    ((∃ e, (WriteSchema envPartial [] "schema").2 = Except.error e ∧
      ∃ i, ∃ h : i < ([⟨"A"⟩, ⟨"B"⟩] : List NsDef).length,
        (WriteSchema envPartial [] "schema").1 =
          foldWrites envPartial [] (([⟨"A"⟩, ⟨"B"⟩] : List NsDef).take i) ∧
        envPartial.writeNamespace
          (foldWrites envPartial [] (([⟨"A"⟩, ⟨"B"⟩] : List NsDef).take i))
          (([⟨"A"⟩, ⟨"B"⟩] : List NsDef).get ⟨i, h⟩) = Except.error e ∧
        ∀ j, ∀ hj : j < i, ∃ st' n,
          envPartial.writeNamespace
            (foldWrites envPartial []
              (([⟨"A"⟩, ⟨"B"⟩] : List NsDef).take j))
            (([⟨"A"⟩, ⟨"B"⟩] : List NsDef).get ⟨j, Nat.lt_trans hj h⟩) =
            Except.ok (st', n)) ∨
    ((WriteSchema envPartial [] "schema").2 =
        Except.ok (([⟨"A"⟩, ⟨"B"⟩] : List NsDef).map (fun d => d.name)) ∧
      (WriteSchema envPartial [] "schema").1 =
        foldWrites envPartial [] [⟨"A"⟩, ⟨"B"⟩] ∧
      ∀ j, ∀ hj : j < ([⟨"A"⟩, ⟨"B"⟩] : List NsDef).length, ∃ st' n,
        envPartial.writeNamespace
          (foldWrites envPartial [] (([⟨"A"⟩, ⟨"B"⟩] : List NsDef).take j))
          (([⟨"A"⟩, ⟨"B"⟩] : List NsDef).get ⟨j, hj⟩) =
          Except.ok (st', n))) :=
  ⟨rfl, rfl,
    C2_write_schema_sequential envPartial [] "schema" [⟨"A"⟩, ⟨"B"⟩] rfl rfl⟩

/-- **C3.** If compilation fails, or the type-system construction, its
validation, or the sanity check of any definition in the batch fails,
`WriteSchema` returns the corresponding error and no definition from the
batch is persisted — the datastore state is returned unchanged — because
the whole compile/validate/sanity phase runs before the first
`WriteNamespace` call; only when all checks pass does the persistence
phase start, from the still-unchanged state. -/
theorem C3_validation_runs_before_writes {St E : Type}
    (env : SchemaWriteEnv St E) (st : St) (schema : String) :
    (∀ e, env.compile schema = Except.error e →
      WriteSchema env st schema = (st, Except.error e)) ∧
    (∀ defs e, env.compile schema = Except.ok defs →
      validateAll env st defs defs = some e →
      WriteSchema env st schema = (st, Except.error e)) ∧
    (∀ defs, env.compile schema = Except.ok defs →
      validateAll env st defs defs = none →
      WriteSchema env st schema = writeAll env st defs []) := by
  refine ⟨fun e he => ?_, fun defs e hc hv => ?_, fun defs hc hv => ?_⟩
  · rw [WriteSchema, he]
  · rw [WriteSchema, hc]
    show (match validateAll env st defs defs with
      | some e => (st, Except.error e)
      | none => writeAll env st defs []) = _
    rw [hv]
  · rw [WriteSchema, hc]
    show (match validateAll env st defs defs with
      | some e => (st, Except.error e)
      | none => writeAll env st defs []) = _
    rw [hv]

theorem C3_witness :
    (envSanityFail.compile "schema" = Except.ok [⟨"A"⟩, ⟨"B"⟩]) ∧
    (validateAll envSanityFail [] [⟨"A"⟩, ⟨"B"⟩] [⟨"A"⟩, ⟨"B"⟩] =
      some "SchemaInvariantViolation") ∧
    WriteSchema envSanityFail [] "schema" =
      ([], Except.error "SchemaInvariantViolation") :=
  ⟨rfl, rfl,
    (C3_validation_runs_before_writes envSanityFail [] "schema").2.1
      [⟨"A"⟩, ⟨"B"⟩] "SchemaInvariantViolation" rfl rfl⟩

end SpiceDB
